import Mathlib

/-!
A verification development for the operator-template core of the hedge
repository (src/hedge/optemplate.py).  The expression-node model, the
mapper passes (OperatorBinder, InverseMassContractor, BCToFluxRewriter,
EmptyFluxKiller) and the dependency analysis are embedded shallowly as
Lean functions.  External collaborators (the pymbolic expression library,
hedge.mesh tags, the hedge.flux sub-language) are modelled where noted.
-/

namespace Hedge

/-- Modelled from the spec: boundary tags are externally supplied
comparable identifiers; reserved tags are a wildcard all-boundaries tag
(hedge.mesh.TAG_ALL) and a rank-boundary family keyed by a remote rank
number (hedge.mesh.TAG_RANK_BOUNDARY(rank)); hedge.mesh is not among
the sources under consideration. -/
inductive Tag where
  | all : Tag
  | rankBoundary (rank : Nat) : Tag
  | named (s : String) : Tag
deriving DecidableEq

/-- Modelled from the spec: the flux sub-language (hedge.flux, an external
collaborator of optemplate.py) has leaves for a per-face normal, a field
component tagged interior/exterior with an index, and a penalty term, plus
the generic pymbolic sum/product/constant nodes. -/
inductive FluxExpr where
  | const (c : Int) : FluxExpr
  | normal (axis : Nat) : FluxExpr
  | fieldComponent (index : Nat) (isInterior : Bool) : FluxExpr
  | penaltyTerm (power : Int) : FluxExpr
  | sum (children : List FluxExpr) : FluxExpr
  | product (children : List FluxExpr) : FluxExpr

mutual

/-- Structural equality on flux expressions (same variant, equal
payload, children compared elementwise). -/
def beqF : FluxExpr → FluxExpr → Bool
  | .const x, .const y => x == y
  | .normal a, .normal b => a == b
  | .fieldComponent i bi, .fieldComponent j bj => i == j && bi == bj
  | .penaltyTerm x, .penaltyTerm y => x == y
  | .sum xs, .sum ys => beqFList xs ys
  | .product xs, .product ys => beqFList xs ys
  | _, _ => false

/-- Elementwise structural equality on lists of flux expressions. -/
def beqFList : List FluxExpr → List FluxExpr → Bool
  | [], [] => true
  | x :: xs, y :: ys => beqF x y && beqFList xs ys
  | _, _ => false

end

mutual

theorem beqF_iff : ∀ a b : FluxExpr, beqF a b = true ↔ a = b
  | .const x, .const y => by simp [beqF]
  | .const _, .normal _ => by simp [beqF]
  | .const _, .fieldComponent _ _ => by simp [beqF]
  | .const _, .penaltyTerm _ => by simp [beqF]
  | .const _, .sum _ => by simp [beqF]
  | .const _, .product _ => by simp [beqF]
  | .normal _, .const _ => by simp [beqF]
  | .normal a, .normal b => by simp [beqF]
  | .normal _, .fieldComponent _ _ => by simp [beqF]
  | .normal _, .penaltyTerm _ => by simp [beqF]
  | .normal _, .sum _ => by simp [beqF]
  | .normal _, .product _ => by simp [beqF]
  | .fieldComponent _ _, .const _ => by simp [beqF]
  | .fieldComponent _ _, .normal _ => by simp [beqF]
  | .fieldComponent i bi, .fieldComponent j bj => by simp [beqF]
  | .fieldComponent _ _, .penaltyTerm _ => by simp [beqF]
  | .fieldComponent _ _, .sum _ => by simp [beqF]
  | .fieldComponent _ _, .product _ => by simp [beqF]
  | .penaltyTerm _, .const _ => by simp [beqF]
  | .penaltyTerm _, .normal _ => by simp [beqF]
  | .penaltyTerm _, .fieldComponent _ _ => by simp [beqF]
  | .penaltyTerm x, .penaltyTerm y => by simp [beqF]
  | .penaltyTerm _, .sum _ => by simp [beqF]
  | .penaltyTerm _, .product _ => by simp [beqF]
  | .sum _, .const _ => by simp [beqF]
  | .sum _, .normal _ => by simp [beqF]
  | .sum _, .fieldComponent _ _ => by simp [beqF]
  | .sum _, .penaltyTerm _ => by simp [beqF]
  | .sum xs, .sum ys => by simp [beqF, beqFList_iff xs ys]
  | .sum _, .product _ => by simp [beqF]
  | .product _, .const _ => by simp [beqF]
  | .product _, .normal _ => by simp [beqF]
  | .product _, .fieldComponent _ _ => by simp [beqF]
  | .product _, .penaltyTerm _ => by simp [beqF]
  | .product _, .sum _ => by simp [beqF]
  | .product xs, .product ys => by simp [beqF, beqFList_iff xs ys]

theorem beqFList_iff : ∀ xs ys : List FluxExpr, beqFList xs ys = true ↔ xs = ys
  | [], [] => by simp [beqFList]
  | [], _ :: _ => by simp [beqFList]
  | _ :: _, [] => by simp [beqFList]
  | x :: xs, y :: ys => by
    simp [beqFList, beqF_iff x y, beqFList_iff xs ys]

end

instance : DecidableEq FluxExpr := fun a b =>
  decidable_of_iff (beqF a b = true) (beqF_iff a b)

/-- The Operator variants of optemplate.py: DifferentiationOperator,
MInvSTOperator, StiffnessOperator, StiffnessTOperator (each carrying an
xyz_axis), MassOperator, InverseMassOperator, ElementwiseMaxOperator,
BoundarizeOperator(tag), FluxExchangeOperator(index, rank),
FluxOperator(flux) and LiftingFluxOperator(flux). -/
inductive Operator where
  | differentiation (axis : Nat) : Operator
  | minvST (axis : Nat) : Operator
  | stiffness (axis : Nat) : Operator
  | stiffnessT (axis : Nat) : Operator
  | mass : Operator
  | inverseMass : Operator
  | elementwiseMax : Operator
  | boundarize (tag : Tag) : Operator
  | fluxExchange (index : Nat) (rank : Nat) : Operator
  | flux (f : FluxExpr) : Operator
  | liftingFlux (f : FluxExpr) : Operator
deriving DecidableEq

/-- The expression-node model: pymbolic Variable (= hedge Field),
ScalarParameter, Python integer constants, BoundaryNormalComponent,
bare Operator leaves, OperatorBinding, BoundaryPair, pymbolic Sum,
Product, CommonSubexpression (with its optional naming hint) and
Subscript, plus numpy object arrays of expressions (vector-valued
fields), which optemplate.py stores as operand payloads. -/
inductive Expr where
  | var (name : String) : Expr
  | scalarParameter (name : String) : Expr
  | const (c : Int) : Expr
  | normalComponent (tag : Tag) (axis : Nat) : Expr
  | op (o : Operator) : Expr
  | operatorBinding (o : Operator) (field : Expr) : Expr
  | boundaryPair (field : Expr) (bfield : Expr) (tag : Tag) : Expr
  | sum (children : List Expr) : Expr
  | product (children : List Expr) : Expr
  | cse (child : Expr) (label : Option String) : Expr
  | subscript (agg : Expr) (idx : Expr) : Expr
  | objArray (elems : List Expr) : Expr

mutual

/-- Node count of an expression; every node counts at least one. -/
def esize : Expr → Nat
  | .var _ => 1
  | .scalarParameter _ => 1
  | .const _ => 1
  | .normalComponent _ _ => 1
  | .op _ => 1
  | .operatorBinding _ f => 1 + esize f
  | .boundaryPair f bf _ => 1 + esize f + esize bf
  | .sum cs => 1 + esizeList cs
  | .product cs => 1 + esizeList cs
  | .cse c _ => 1 + esize c
  | .subscript a i => 1 + esize a + esize i
  | .objArray es => 1 + esizeList es

/-- Total node count of a list of expressions. -/
def esizeList : List Expr → Nat
  | [] => 0
  | e :: es => esize e + esizeList es

end

theorem esize_pos (e : Expr) : 0 < esize e := by
  cases e <;> simp [esize]

theorem esizeList_append (xs ys : List Expr) :
    esizeList (xs ++ ys) = esizeList xs + esizeList ys := by
  induction xs with
  | nil => simp [esizeList]
  | cons e es ih => simp [esizeList, ih]; omega

/-- pymbolic.primitives.is_zero, specialized to our constants: only the
integer constant 0 counts as zero (symbolic expressions are nonzero). -/
def isZeroE : Expr → Bool
  | .const c => c == 0
  | _ => false

/-- Worker for pymbolic.primitives.flattened_sum: a work queue is
processed front to back; zeros are dropped, nested sums are unwrapped
onto the end of the queue, and everything else is appended to the result
list. -/
def flattenSumAux : List Expr → List Expr → List Expr
  | [], done => done
  | .sum cs :: queue, done => flattenSumAux (queue ++ cs) done
  | e :: queue, done =>
    if isZeroE e then flattenSumAux queue done
    else flattenSumAux queue (done ++ [e])
termination_by queue _ => esizeList queue
decreasing_by
  all_goals simp only [esizeList_append, esizeList, esize]
  all_goals first
  | omega
  | (have h9 := esize_pos e; omega)

/-- pymbolic.primitives.flattened_sum: flatten the top-level sum
structure of the components; an empty result is the additive identity,
a singleton result is returned bare. -/
def flattenedSum (xs : List Expr) : Expr :=
  match flattenSumAux xs [] with
  | [] => .const 0
  | [e] => e
  | ds => .sum ds

/-- Worker for pymbolic.primitives.flattened_product: like the sum
version, but a zero factor short-circuits the whole product to zero
(signalled by none). -/
def flattenProdAux : List Expr → List Expr → Option (List Expr)
  | [], done => some done
  | .product cs :: queue, done => flattenProdAux (queue ++ cs) done
  | e :: queue, done =>
    if isZeroE e then none
    else flattenProdAux queue (done ++ [e])
termination_by queue _ => esizeList queue
decreasing_by
  all_goals simp only [esizeList_append, esizeList, esize]
  all_goals first
  | omega
  | (have h9 := esize_pos e; omega)

/-- pymbolic.primitives.flattened_product: flatten the top-level product
structure; a zero factor yields 0, an empty result is the multiplicative
identity 1, a singleton result is returned bare. -/
def flattenedProduct (xs : List Expr) : Expr :=
  match flattenProdAux xs [] with
  | none => .const 0
  | some [] => .const 1
  | some [e] => e
  | some ds => .product ds

/-- Python multiplication as optemplate.py uses it in
OperatorBinder.map_product (first * rec(...)): integers multiply
numerically; multiplying an expression by the integers 1 and 0
short-circuits (pymbolic Expression mul/rmul); otherwise a
two-factor pymbolic Product is built. -/
def mul (a b : Expr) : Expr :=
  match a, b with
  | .const x, .const y => .const (x * y)
  | .const x, b => if x = 1 then b else if x = 0 then .const 0 else .product [.const x, b]
  | a, .const y => if y = 1 then a else if y = 0 then .const 0 else .product [a, .const y]
  | a, b => .product [a, b]

theorem flattenProdAux_esize (q d out : List Expr)
    (h : flattenProdAux q d = some out) :
    esizeList out ≤ esizeList q + esizeList d := by
  induction q, d using flattenProdAux.induct with
  | case1 d =>
    rw [flattenProdAux] at h
    cases h
    simp [esizeList]
  | case2 cs queue done ih =>
    rw [flattenProdAux] at h
    have := ih h
    simp only [esizeList_append, esizeList, esize] at *
    omega
  | case3 e queue done h1 hz =>
    rw [flattenProdAux] at h
    rotate_left
    · exact h1
    rw [if_pos hz] at h
    cases h
  | case4 e queue done h1 hz ih =>
    rw [flattenProdAux] at h
    rotate_left
    · exact h1
    rw [if_neg hz] at h
    have := ih h
    simp only [esizeList_append, esizeList] at *
    have := esize_pos e
    omega

theorem esize_flattenedProduct (xs : List Expr) :
    esize (flattenedProduct xs) ≤ 1 + esizeList xs := by
  unfold flattenedProduct
  cases h : flattenProdAux xs [] with
  | none => simp [esize]
  | some out =>
    have hb := flattenProdAux_esize xs [] out h
    simp only [esizeList] at hb
    rcases out with _ | ⟨e, _ | ⟨f, rest⟩⟩
    · simp [esize]
    · show esize e ≤ 1 + esizeList xs
      simp only [esizeList] at hb
      omega
    · show esize (.product (e :: f :: rest)) ≤ 1 + esizeList xs
      simp only [esize]
      omega

theorem esizeList_mem {e : Expr} {cs : List Expr} (h : e ∈ cs) :
    esize e ≤ esizeList cs := by
  induction cs with
  | nil => cases h
  | cons x xs ih =>
    rcases List.mem_cons.mp h with h1 | h2
    · subst h1; simp only [esizeList]; omega
    · have := ih h2; simp only [esizeList]; omega

/-- OperatorBinder (optemplate.py lines 906-920): an identity rewrite
pass whose map_product, on a nonempty product, checks whether the first
factor is an Operator: if so it emits an OperatorBinding of that
operator over the recursively bound flattened product of the remaining
factors, otherwise it multiplies the (unrecursed) first factor onto the
recursively bound flattened rest.  Empty products are returned
unchanged.  All other node kinds are rebuilt structurally; sums of
children are reassembled by the pymbolic identity mapper with
flattened_sum (operator leaves and other leaves are returned
unchanged). -/
def binder : Expr → Expr
  | .product [] => .product []
  | .product (.op o :: rest) => .operatorBinding o (binder (flattenedProduct rest))
  | .product (first :: rest) => mul first (binder (flattenedProduct rest))
  | .sum cs => flattenedSum (cs.attach.map (fun x => binder x.1))
  | .operatorBinding o f => .operatorBinding o (binder f)
  | .boundaryPair f bf t => .boundaryPair (binder f) (binder bf) t
  | .cse c l => .cse (binder c) l
  | .subscript a i => .subscript (binder a) (binder i)
  | .objArray es => .objArray (es.attach.map (fun x => binder x.1))
  | .var n => .var n
  | .scalarParameter n => .scalarParameter n
  | .const c => .const c
  | .normalComponent t ax => .normalComponent t ax
  | .op o => .op o
termination_by e => esize e
decreasing_by
  all_goals simp only [esize, esizeList]
  · have := esize_flattenedProduct rest; omega
  · have := esize_flattenedProduct rest; have := esize_pos first; omega
  · have := esizeList_mem x.2; omega
  all_goals first
  | (have h9 := esizeList_mem x.2; omega)
  | (have h9 := esize_pos f; omega)
  | (have h9 := esize_pos bf; omega)
  | (have h9 := esize_pos i; omega)
  | (have h9 := esize_pos a; omega)
  | omega

/-- Elementwise traversal of expression lists by the binder (the
pymbolic mapper maps numpy object arrays and child tuples
componentwise). -/
def binderList (es : List Expr) : List Expr := es.map binder

theorem binder_sum (cs : List Expr) :
    binder (.sum cs) = flattenedSum (binderList cs) := by
  rw [binder, binderList, List.attach_map_val]

theorem binder_objArray (es : List Expr) :
    binder (.objArray es) = .objArray (binderList es) := by
  rw [binder, binderList, List.attach_map_val]

mutual

/-- Structural equality of expression nodes, translated from the
is_equal methods of optemplate.py (BoundaryNormalComponent,
StatelessOperator, DiffOperatorBase, BoundarizeOperator,
FluxExchangeOperator, FluxOperatorBase, OperatorBinding, BoundaryPair)
and from the structural equality of the pymbolic base classes (equal
iff same class and equal constructor arguments).  Operand payloads of
OperatorBinding and BoundaryPair are compared with
hedge.tools.field_equal, which compares object arrays elementwise and
is false between an array and a scalar; here that is the objArray case
together with the different-constructor fallthrough. -/
def isEqual : Expr → Expr → Bool
  | .var a, .var b => a == b
  | .scalarParameter a, .scalarParameter b => a == b
  | .const a, .const b => a == b
  | .normalComponent t1 a1, .normalComponent t2 a2 => t1 == t2 && a1 == a2
  | .op o1, .op o2 => o1 == o2
  | .operatorBinding o1 f1, .operatorBinding o2 f2 => o1 == o2 && isEqual f1 f2
  | .boundaryPair f1 b1 t1, .boundaryPair f2 b2 t2 =>
    isEqual f1 f2 && isEqual b1 b2 && t1 == t2
  | .sum xs, .sum ys => isEqualList xs ys
  | .product xs, .product ys => isEqualList xs ys
  | .cse c1 l1, .cse c2 l2 => isEqual c1 c2 && l1 == l2
  | .subscript a1 i1, .subscript a2 i2 => isEqual a1 a2 && isEqual i1 i2
  | .objArray xs, .objArray ys => isEqualList xs ys
  | _, _ => false

/-- Elementwise structural equality of expression lists (child tuples
and object arrays). -/
def isEqualList : List Expr → List Expr → Bool
  | [], [] => true
  | x :: xs, y :: ys => isEqual x y && isEqualList xs ys
  | _, _ => false

end

theorem isEqualList_iff_of (xs ys : List Expr)
    (hx : ∀ x ∈ xs, ∀ b, isEqual x b = true ↔ x = b) :
    isEqualList xs ys = true ↔ xs = ys := by
  induction xs generalizing ys with
  | nil => cases ys <;> simp [isEqualList]
  | cons x xs ih =>
    cases ys with
    | nil => simp [isEqualList]
    | cons y ys =>
      have h1 := hx x (by simp)
      have h2 : ∀ x ∈ xs, ∀ b, isEqual x b = true ↔ x = b := by
        intro x hmem b; exact hx x (by simp [hmem]) b
      simp [isEqualList, h1 y, ih ys h2]

theorem isEqual_iff_main :
    ∀ (n : Nat) (a b : Expr), esize a = n → (isEqual a b = true ↔ a = b) := by
  intro n
  induction n using Nat.strong_induction_on with
  | _ n ih =>
    intro a b hn
    have ihE : ∀ (a' b' : Expr), esize a' < n → (isEqual a' b' = true ↔ a' = b') :=
      fun a' b' h => ih (esize a') (hn ▸ h) a' b' rfl
    have ihList : ∀ (cs : List Expr), esizeList cs < n →
        ∀ ys, (isEqualList cs ys = true ↔ cs = ys) := by
      intro cs hcs ys
      refine isEqualList_iff_of cs ys ?_
      intro x hmem b
      exact ihE x b (by have := esizeList_mem hmem; omega)
    subst hn
    cases a with
    | var s => cases b <;> simp [isEqual]
    | scalarParameter s => cases b <;> simp [isEqual]
    | const c => cases b <;> simp [isEqual]
    | normalComponent t ax => cases b <;> simp [isEqual]
    | op o => cases b <;> simp [isEqual]
    | operatorBinding o f =>
      cases b <;> simp [isEqual]
      intro _
      rw [ihE f _ (by simp only [esize]; omega)]
    | boundaryPair f bf t =>
      cases b <;> simp [isEqual]
      rw [ihE f _ (by simp only [esize]; omega), ihE bf _ (by simp only [esize]; omega)]
      tauto
    | sum cs =>
      cases b <;> simp [isEqual]
      rw [ihList cs (by simp only [esize]; omega)]
    | product cs =>
      cases b <;> simp [isEqual]
      rw [ihList cs (by simp only [esize]; omega)]
    | cse c l =>
      cases b <;> simp [isEqual]
      rw [ihE c _ (by simp only [esize]; omega)]
      tauto
    | subscript a i =>
      cases b <;> simp [isEqual]
      rw [ihE a _ (by simp only [esize]; omega), ihE i _ (by simp only [esize]; omega)]
    | objArray es =>
      cases b <;> simp [isEqual]
      rw [ihList es (by simp only [esize]; omega)]

/-- Structural equality agrees with syntactic identity of the embedded
nodes: is_equal is an equivalence that identifies exactly the
structurally identical trees. -/
theorem isEqual_iff (a b : Expr) : isEqual a b = true ↔ a = b :=
  isEqual_iff_main (esize a) a b rfl

instance : DecidableEq Expr := fun a b =>
  decidable_of_iff (isEqual a b = true) (isEqual_iff a b)

/-- The values Python's built-in hash is applied to by the get_hash
methods: classes, integers, strings, None, boundary tags, flux payloads
and tuples of such values.  Two equal such values receive equal Python
hashes, so any function out of PyObj is an admissible hash. -/
inductive PyObj where
  | pyclass (name : String) : PyObj
  | pint (i : Int) : PyObj
  | pstr (s : String) : PyObj
  | pnone : PyObj
  | ptag (t : Tag) : PyObj
  | pflux (f : FluxExpr) : PyObj
  | ptuple (xs : List PyObj) : PyObj

/-- The hash input of an Operator, from the get_hash methods:
DiffOperatorBase hashes (class, xyz_axis), StatelessOperator hashes the
class alone, BoundarizeOperator hashes (class, tag),
FluxExchangeOperator hashes (class, index, rank) and FluxOperatorBase
hashes (class, flux). -/
def opHash : Operator → PyObj
  | .differentiation ax => .ptuple [.pyclass "DifferentiationOperator", .pint ax]
  | .minvST ax => .ptuple [.pyclass "MInvSTOperator", .pint ax]
  | .stiffness ax => .ptuple [.pyclass "StiffnessOperator", .pint ax]
  | .stiffnessT ax => .ptuple [.pyclass "StiffnessTOperator", .pint ax]
  | .mass => .pyclass "MassOperator"
  | .inverseMass => .pyclass "InverseMassOperator"
  | .elementwiseMax => .pyclass "ElementwiseMaxOperator"
  | .boundarize t => .ptuple [.pyclass "BoundarizeOperator", .ptag t]
  | .fluxExchange i r => .ptuple [.pyclass "FluxExchangeOperator", .pint i, .pint r]
  | .flux f => .ptuple [.pyclass "FluxOperator", .pflux f]
  | .liftingFlux f => .ptuple [.pyclass "LiftingFluxOperator", .pflux f]

/-- Hash input of the optional naming hint of a CommonSubexpression. -/
def labelHash : Option String → PyObj
  | none => .pnone
  | some s => .pstr s

mutual

/-- The hash input of an expression node, translated from the get_hash
methods of optemplate.py and the pymbolic base classes (which hash the
tuple of the class and the constructor arguments).  OperatorBinding
hashes (class, op, hashable_field(field)) and BoundaryPair hashes
(class, hashable_field(field), hashable_field(bfield), tag), where
hedge.tools.hashable_field turns a numpy object array into a tuple of
its components (the objArray case below); a bare numpy array outside an
operand slot is unhashable in Python and does not occur. -/
def getHash : Expr → PyObj
  | .var n => .ptuple [.pyclass "Variable", .pstr n]
  | .scalarParameter n => .ptuple [.pyclass "ScalarParameter", .pstr n]
  | .const c => .pint c
  | .normalComponent t ax => .ptuple [.pyclass "BoundaryNormalComponent", .ptag t, .pint ax]
  | .op o => opHash o
  | .operatorBinding o f => .ptuple [.pyclass "OperatorBinding", opHash o, getHash f]
  | .boundaryPair f bf t => .ptuple [.pyclass "BoundaryPair", getHash f, getHash bf, .ptag t]
  | .sum cs => .ptuple [.pyclass "Sum", .ptuple (getHashList cs)]
  | .product cs => .ptuple [.pyclass "Product", .ptuple (getHashList cs)]
  | .cse c l => .ptuple [.pyclass "CommonSubexpression", getHash c, labelHash l]
  | .subscript a i => .ptuple [.pyclass "Subscript", getHash a, getHash i]
  | .objArray es => .ptuple (getHashList es)

/-- Hash inputs of a tuple of child expressions. -/
def getHashList : List Expr → List PyObj
  | [] => []
  | e :: es => getHash e :: getHashList es

end


instance {ε α : Type} [DecidableEq ε] [DecidableEq α] : DecidableEq (Except ε α)
  | .error x, .error y =>
    if h : x = y then .isTrue (by rw [h]) else .isFalse (by simp [h])
  | .error _, .ok _ => .isFalse (by simp)
  | .ok _, .error _ => .isFalse (by simp)
  | .ok x, .ok y =>
    if h : x = y then .isTrue (by rw [h]) else .isFalse (by simp [h])

/-- The failure modes of the rewrite passes, each carrying the context
the corresponding Python RuntimeError message reports: the two
disagreeing tags, the offending operator, or the shared
volume/boundary dependencies. -/
inductive Err where
  | normalTagMismatch (nodeTag pairTag : Tag) : Err
  | boundarizeTagMismatch (opTag pairTag : Tag) : Err
  | exchangeTagMismatch (opTag pairTag : Tag) : Err
  | operatorOnBoundary (o : Operator) : Err
  | namespaceCollision (shared : List Expr) : Err
  | unsupportedInverseMassOperand : Err
  | minerUnsupported : Err
  | substitutionIndexError : Err
deriving DecidableEq

/-- is_scalar inside _InnerInverseMassContractor.map_product: Python
int/float/complex scalars, which our constants model. -/
def isScalarE : Expr → Bool
  | .const _ => true
  | _ => false

/-- The count of non-scalar factors computed by
_InnerInverseMassContractor.map_product. -/
def nonscalarCount (cs : List Expr) : Nat :=
  cs.countP (fun e => !isScalarE e)

mutual

/-- _InnerInverseMassContractor (optemplate.py lines 925-978), the
rewrite applied to the operand of an InverseMass binding.  A binding of
a Mass operator cancels to its field; Stiffness becomes Differentiation,
StiffnessTranspose becomes MInvST and Flux becomes LiftingFlux, each
over the unchanged field; any other binding is wrapped as InverseMass
over the binding as it stands.  Constants and algebraic leaves
(variables, subscripts) are wrapped as InverseMass bindings.  Sums
recurse into every child; products with more than one non-scalar
factor are returned untouched, otherwise scalar factors pass through
and the rest recurse.  Node kinds for which the Python mapper has no
method (operators, scalar parameters, normal components, common
subexpressions, boundary pairs, object arrays) raise. -/
def innerIMC : Expr → Except Err Expr
  | .operatorBinding .mass f => .ok f
  | .operatorBinding (.stiffness ax) f =>
    .ok (.operatorBinding (.differentiation ax) f)
  | .operatorBinding (.stiffnessT ax) f =>
    .ok (.operatorBinding (.minvST ax) f)
  | .operatorBinding (.flux fl) f =>
    .ok (.operatorBinding (.liftingFlux fl) f)
  | .operatorBinding o f =>
    .ok (.operatorBinding .inverseMass (.operatorBinding o f))
  | .const c => .ok (.operatorBinding .inverseMass (.const c))
  | .var n => .ok (.operatorBinding .inverseMass (.var n))
  | .subscript a i => .ok (.operatorBinding .inverseMass (.subscript a i))
  | .sum cs => do .ok (.sum (← innerIMCList cs))
  | .product cs =>
    if nonscalarCount cs > 1 then .ok (.product cs)
    else do .ok (.product (← innerIMCDoMap cs))
  | _ => .error .unsupportedInverseMassOperand
termination_by e => 2 * esize e
decreasing_by
  all_goals simp only [esize]; omega

/-- Child traversal of _InnerInverseMassContractor.map_sum. -/
def innerIMCList : List Expr → Except Err (List Expr)
  | [] => .ok []
  | e :: es => do .ok ((← innerIMC e) :: (← innerIMCList es))
termination_by es => 2 * esizeList es + 1
decreasing_by
  all_goals simp only [esizeList]
  all_goals first
  | omega
  | (have h9 := esize_pos e; omega)

/-- Child traversal of _InnerInverseMassContractor.map_product: scalar
factors pass through unchanged, other factors recurse. -/
def innerIMCDoMap : List Expr → Except Err (List Expr)
  | [] => .ok []
  | e :: es => do
    let r ← if isScalarE e then .ok e else innerIMC e
    .ok (r :: (← innerIMCDoMap es))
termination_by es => 2 * esizeList es + 1
decreasing_by
  all_goals simp only [esizeList]
  all_goals first
  | omega
  | (have h9 := esize_pos e; omega)

end

mutual

/-- InverseMassContractor (optemplate.py lines 984-998): an identity
rewrite pass; a binding of an InverseMass operator hands its operand to
_InnerInverseMassContractor, any other binding is rebuilt over the
recursively contracted field; boundary pairs are rebuilt over both
contracted sides; sums and products of children are reassembled by the
pymbolic identity mapper with flattened_sum and flattened_product;
leaves are unchanged. -/
def imc : Expr → Except Err Expr
  | .operatorBinding .inverseMass f => innerIMC f
  | .operatorBinding o f => do .ok (.operatorBinding o (← imc f))
  | .boundaryPair f bf t => do .ok (.boundaryPair (← imc f) (← imc bf) t)
  | .sum cs => do .ok (flattenedSum (← imcList cs))
  | .product cs => do .ok (flattenedProduct (← imcList cs))
  | .cse c l => do .ok (.cse (← imc c) l)
  | .subscript a i => do .ok (.subscript (← imc a) (← imc i))
  | .objArray es => do .ok (.objArray (← imcList es))
  | .var n => .ok (.var n)
  | .scalarParameter n => .ok (.scalarParameter n)
  | .const c => .ok (.const c)
  | .normalComponent t ax => .ok (.normalComponent t ax)
  | .op o => .ok (.op o)
termination_by e => 2 * esize e
decreasing_by
  all_goals simp only [esize]; omega

/-- Child traversal of the InverseMassContractor. -/
def imcList : List Expr → Except Err (List Expr)
  | [] => .ok []
  | e :: es => do .ok ((← imc e) :: (← imcList es))
termination_by es => 2 * esizeList es + 1
decreasing_by
  all_goals simp only [esizeList]
  all_goals first
  | omega
  | (have h9 := esize_pos e; omega)

end

mutual

/-- The hedge DependencyMapper (optemplate.py lines 622-654) as
instantiated by the BCToFluxRewriter with include_operator_bindings =
True: variables, scalar parameters and subscripts are dependencies of
themselves, an operator binding is a dependency as a whole (no descent
into it), operators, normal components and constants have none, and
composite nodes combine their children by set union (modelled as list
concatenation; membership is structural equality). -/
def deps : Expr → List Expr
  | .var n => [.var n]
  | .scalarParameter n => [.scalarParameter n]
  | .subscript a i => [.subscript a i]
  | .operatorBinding o f => [.operatorBinding o f]
  | .normalComponent _ _ => []
  | .op _ => []
  | .const _ => []
  | .sum cs => depsList cs
  | .product cs => depsList cs
  | .objArray es => depsList es
  | .boundaryPair f bf _ => deps f ++ deps bf
  | .cse c _ => deps c
termination_by e => 2 * esize e
decreasing_by
  all_goals simp only [esize]; omega

/-- Union of the dependencies of a list of children. -/
def depsList : List Expr → List Expr
  | [] => []
  | e :: es => deps e ++ depsList es
termination_by es => 2 * esizeList es + 1
decreasing_by
  all_goals simp only [esizeList]
  all_goals first
  | omega
  | (have h9 := esize_pos e; omega)

end

/-- The intersection of the boundary-side and volume-side dependency
sets computed by BCToFluxRewriter.map_operator_binding (the elements of
the boundary set that also occur in the volume set). -/
def depCollision (vol bf : Expr) : List Expr :=
  (deps bf).filter (fun d => (deps vol).any (fun v => isEqual d v))

/-- The operator test of EmptyFluxKiller.map_operator_binding:
isinstance(op, (FluxOperatorBase, LiftingFluxOperator)), which holds
exactly for Flux and LiftingFlux operators. -/
def isFluxFamily : Operator → Bool
  | .flux _ => true
  | .liftingFlux _ => true
  | _ => false

/-- The kill test of EmptyFluxKiller.map_operator_binding: a flux-family
operator bound to a BoundaryPair whose tag the geometry oracle (the
discretization) reports as having zero boundary nodes. -/
def efkKill (nc : Tag → Nat) (o : Operator) (f : Expr) : Bool :=
  isFluxFamily o &&
    (match f with
     | .boundaryPair _ _ t => nc t == 0
     | _ => false)

mutual

/-- EmptyFluxKiller (optemplate.py lines 883-901): an identity rewrite
pass over a geometry oracle nc mapping each boundary tag to its node
count; a flux-family binding over a BoundaryPair with zero boundary
nodes becomes the Python integer 0 (the additive identity); everything
else is rebuilt structurally, sums and products of children being
reassembled by the pymbolic identity mapper with flattened_sum and
flattened_product (which drop zeros from sums). -/
def efk (nc : Tag → Nat) : Expr → Expr
  | .operatorBinding o f =>
    if efkKill nc o f then .const 0 else .operatorBinding o (efk nc f)
  | .boundaryPair f bf t => .boundaryPair (efk nc f) (efk nc bf) t
  | .sum cs => flattenedSum (efkList nc cs)
  | .product cs => flattenedProduct (efkList nc cs)
  | .cse c l => .cse (efk nc c) l
  | .subscript a i => .subscript (efk nc a) (efk nc i)
  | .objArray es => .objArray (efkList nc es)
  | .var n => .var n
  | .scalarParameter n => .scalarParameter n
  | .const c => .const c
  | .normalComponent t ax => .normalComponent t ax
  | .op o => .op o
termination_by e => 2 * esize e
decreasing_by
  all_goals simp only [esize]; omega

/-- Child traversal of the EmptyFluxKiller. -/
def efkList (nc : Tag → Nat) : List Expr → List Expr
  | [] => []
  | e :: es => efk nc e :: efkList nc es
termination_by es => 2 * esizeList es + 1
decreasing_by
  all_goals simp only [esizeList]
  all_goals first
  | omega
  | (have h9 := esize_pos e; omega)

end

mutual

/-- Node count of a flux expression. -/
def fsize : FluxExpr → Nat
  | .const _ => 1
  | .normal _ => 1
  | .fieldComponent _ _ => 1
  | .penaltyTerm _ => 1
  | .sum cs => 1 + fsizeList cs
  | .product cs => 1 + fsizeList cs

/-- Total node count of a list of flux expressions. -/
def fsizeList : List FluxExpr → Nat
  | [] => 0
  | f :: fs => fsize f + fsizeList fs

end

theorem fsize_pos (f : FluxExpr) : 0 < fsize f := by
  cases f <;> simp [fsize]

theorem fsizeList_append (xs ys : List FluxExpr) :
    fsizeList (xs ++ ys) = fsizeList xs + fsizeList ys := by
  induction xs with
  | nil => simp [fsizeList]
  | cons e es ih => simp [fsizeList, ih]; omega

/-- hedge.tools.is_zero on the rewritten flux: true exactly for the
additive identity.  Modelled from the spec: hedge.tools is not among
the sources under consideration; the rewriter drops the term when the
rewritten flux formula reduces to the additive identity. -/
def isZeroF : FluxExpr → Bool
  | .const c => c == 0
  | _ => false

/-- Worker for pymbolic flattened_sum over flux expressions. -/
def fluxFlattenSumAux : List FluxExpr → List FluxExpr → List FluxExpr
  | [], done => done
  | .sum cs :: queue, done => fluxFlattenSumAux (queue ++ cs) done
  | f :: queue, done =>
    if isZeroF f then fluxFlattenSumAux queue done
    else fluxFlattenSumAux queue (done ++ [f])
termination_by queue _ => fsizeList queue
decreasing_by
  all_goals simp only [fsizeList_append, fsizeList, fsize]
  all_goals first
  | omega
  | (have h9 := fsize_pos f; omega)

/-- pymbolic flattened_sum over flux expressions. -/
def fluxFlattenedSum (xs : List FluxExpr) : FluxExpr :=
  match fluxFlattenSumAux xs [] with
  | [] => .const 0
  | [f] => f
  | ds => .sum ds

/-- Worker for pymbolic flattened_product over flux expressions. -/
def fluxFlattenProdAux : List FluxExpr → List FluxExpr → Option (List FluxExpr)
  | [], done => some done
  | .product cs :: queue, done => fluxFlattenProdAux (queue ++ cs) done
  | f :: queue, done =>
    if isZeroF f then none
    else fluxFlattenProdAux queue (done ++ [f])
termination_by queue _ => fsizeList queue
decreasing_by
  all_goals simp only [fsizeList_append, fsizeList, fsize]
  all_goals first
  | omega
  | (have h9 := fsize_pos f; omega)

/-- pymbolic flattened_product over flux expressions. -/
def fluxFlattenedProduct (xs : List FluxExpr) : FluxExpr :=
  match fluxFlattenProdAux xs [] with
  | none => .const 0
  | some [] => .const 1
  | some [f] => f
  | some ds => .product ds


mutual

/-- Modelled from the spec: hedge.flux.FluxSubstitutionMapper (hedge.flux
is not among the sources under consideration) applies the substitution
function to field-component leaves, replacing the leaf when the function
yields a value; all other flux sub-language nodes pass through
untouched, composite nodes being rebuilt over recursively substituted
children in pymbolic identity-mapper fashion.  The substitution
function may fail (Python raises when indexing the discovered boundary
expression out of range). -/
def fluxSubst (σ : FluxExpr → Except Err (Option FluxExpr)) : FluxExpr → Except Err FluxExpr
  | .fieldComponent i b => do
    match ← σ (.fieldComponent i b) with
    | some r => .ok r
    | none => .ok (.fieldComponent i b)
  | .sum cs => do .ok (fluxFlattenedSum (← fluxSubstList σ cs))
  | .product cs => do .ok (fluxFlattenedProduct (← fluxSubstList σ cs))
  | .const c => .ok (.const c)
  | .normal ax => .ok (.normal ax)
  | .penaltyTerm p => .ok (.penaltyTerm p)
termination_by f => 2 * fsize f
decreasing_by
  all_goals simp only [fsize]; omega

/-- Child traversal of the flux substitution. -/
def fluxSubstList (σ : FluxExpr → Except Err (Option FluxExpr)) :
    List FluxExpr → Except Err (List FluxExpr)
  | [] => .ok []
  | f :: fs => do .ok ((← fluxSubst σ f) :: (← fluxSubstList σ fs))
termination_by fs => 2 * fsizeList fs + 1
decreasing_by
  all_goals simp only [fsizeList]
  all_goals first
  | omega
  | (have h9 := fsize_pos f; omega)

end

/-- The mutable state of MaxBoundaryFluxEvaluableExpressionFinder
(optemplate.py lines 1041-1067): the growing volume and boundary
expression lists together with the Python dictionaries mapping an
expression to its index. -/
structure MinerState where
  volList : List Expr
  volIdx : List (Expr × Nat)
  bdryList : List Expr
  bdryIdx : List (Expr × Nat)
deriving DecidableEq

/-- Python dictionary lookup keyed by expression equality. -/
def dictGet? (d : List (Expr × Nat)) (k : Expr) : Option Nat :=
  (d.find? (fun p => p.1 == k)).map (fun p => p.2)

/-- Python dictionary insertion: overwrite the entry of an existing key,
otherwise append a new entry. -/
def dictInsert (d : List (Expr × Nat)) (k : Expr) (v : Nat) : List (Expr × Nat) :=
  if (d.find? (fun p => p.1 == k)).isSome then
    d.map (fun p => if p.1 == k then (k, v) else p)
  else d ++ [(k, v)]

/-- The dictionary built by the miner constructor:
dict((vol_expr, idx) for idx, vol_expr in enumerate(vol_expr_list)). -/
def initIdx (volList : List Expr) : List (Expr × Nat) :=
  volList.enum.foldl (fun d p => dictInsert d p.2 p.1) []

/-- The miner state at construction time: the full volume field list
with its enumeration dictionary, and empty boundary structures. -/
def initMinerState (volList : List Expr) : MinerState :=
  ⟨volList, initIdx volList, [], []⟩

/-- register_boundary_expr (optemplate.py lines 1051-1058): return the
known index of the expression, otherwise assign it the next index and
append it to the boundary expression list. -/
def registerBoundary (s : MinerState) (e : Expr) : Nat × MinerState :=
  match dictGet? s.bdryIdx e with
  | some i => (i, s)
  | none =>
    let idx := s.bdryIdx.length
    (idx, { s with bdryIdx := dictInsert s.bdryIdx e idx,
                   bdryList := s.bdryList ++ [e] })

/-- register_volume_expr (optemplate.py lines 1060-1067): return the
known index of the expression, otherwise assign it the next index and
append it to the volume expression list. -/
def registerVolume (s : MinerState) (e : Expr) : Nat × MinerState :=
  match dictGet? s.volIdx e with
  | some i => (i, s)
  | none =>
    let idx := s.volIdx.length
    (idx, { s with volIdx := dictInsert s.volIdx e idx,
                   volList := s.volList ++ [e] })

mutual

/-- MaxBoundaryFluxEvaluableExpressionFinder (optemplate.py lines
1041-1118), the miner run over the boundary-side expression of a
BoundaryPair under a Flux binding; btag is the pair tag it closes over.
A NormalComponent whose tag matches becomes a flux-local Normal,
otherwise it raises reporting both tags.  A free variable or subscript
registers as a boundary-side flux input.  A Boundarize binding with
matching tag registers its operand as a volume-side (interior) flux
input, otherwise it raises reporting both tags; a FluxExchange binding
whose rank-boundary tag matches registers itself as a boundary-side
input, otherwise it raises reporting both tags; any other operator
binding raises reporting the operator.  Constants pass through, sums
and products are rebuilt (as flux expressions) by the pymbolic identity
mapper; node kinds the mapper cannot translate into the flux language
raise. -/
def mineB (btag : Tag) : Expr → MinerState → Except Err (FluxExpr × MinerState)
  | .normalComponent t ax, s =>
    if t = btag then .ok (.normal ax, s)
    else .error (.normalTagMismatch t btag)
  | .var n, s =>
    let r := registerBoundary s (.var n)
    .ok (.fieldComponent r.1 false, r.2)
  | .subscript a ix, s =>
    let r := registerBoundary s (.subscript a ix)
    .ok (.fieldComponent r.1 false, r.2)
  | .operatorBinding (.boundarize t) f, s =>
    if t = btag then
      let r := registerVolume s f
      .ok (.fieldComponent r.1 true, r.2)
    else .error (.boundarizeTagMismatch t btag)
  | .operatorBinding (.fluxExchange ix rk) f, s =>
    if btag = .rankBoundary rk then
      let r := registerBoundary s (.operatorBinding (.fluxExchange ix rk) f)
      .ok (.fieldComponent r.1 false, r.2)
    else .error (.exchangeTagMismatch (.rankBoundary rk) btag)
  | .operatorBinding o _, _ => .error (.operatorOnBoundary o)
  | .const c, s => .ok (.const c, s)
  | .sum cs, s => do
    let r ← mineList btag cs s
    .ok (fluxFlattenedSum r.1, r.2)
  | .product cs, s => do
    let r ← mineList btag cs s
    .ok (fluxFlattenedProduct r.1, r.2)
  | _, _ => .error .minerUnsupported
termination_by e _ => 2 * esize e
decreasing_by
  all_goals simp only [esize]; omega

/-- Child traversal of the miner, threading its registration state left
to right. -/
def mineList (btag : Tag) : List Expr → MinerState → Except Err (List FluxExpr × MinerState)
  | [], s => .ok ([], s)
  | e :: es, s => do
    let r1 ← mineB btag e s
    let r2 ← mineList btag es r1.2
    .ok (r1.1 :: r2.1, r2.2)
termination_by es _ => 2 * esizeList es + 1
decreasing_by
  all_goals simp only [esizeList]
  all_goals first
  | omega
  | (have h9 := esize_pos e; omega)

end

/-- The mined form of the boundary field: a single flux expression for a
scalar boundary field, or one flux expression per component of an
object-array boundary field (the mapper maps numpy object arrays
componentwise with shared state). -/
inductive Mined where
  | scalar (nb : FluxExpr) : Mined
  | array (nbs : List FluxExpr) : Mined
deriving DecidableEq

/-- The miner applied to the boundary field as a whole. -/
def mineTop (btag : Tag) (bf : Expr) (s : MinerState) : Except Err (Mined × MinerState) :=
  match bf with
  | .objArray es => do
    let r ← mineList btag es s
    .ok (.array r.1, r.2)
  | e => do
    let r ← mineB btag e s
    .ok (.scalar r.1, r.2)

/-- sub_bdry_into_flux (optemplate.py lines 1130-1137): an
exterior-tagged field component of index 0 over a scalar boundary field
is replaced by the mined boundary expression; over an object-array
boundary field the mined component list is indexed (failing like Python
on an out-of-range index, as does a nonzero index into a scalar
boundary field); everything else is left alone. -/
def substBdry (m : Mined) : FluxExpr → Except Err (Option FluxExpr)
  | .fieldComponent i false =>
    match m with
    | .scalar nb => if i = 0 then .ok (some nb) else .error .substitutionIndexError
    | .array nbs =>
      match nbs.get? i with
      | some r => .ok (some r)
      | none => .error .substitutionIndexError
  | _ => .ok none

/-- The volume expression list the miner is constructed with:
the components of an object-array volume field, or the one-element list
of a scalar volume field. -/
def volListOf : Expr → List Expr
  | .objArray es => es
  | v => [v]

mutual

/-- BCToFluxRewriter (optemplate.py lines 1004-1150): an identity
rewrite pass.  On a binding of a Flux operator over a BoundaryPair it
computes the boundary-side and volume-side dependency sets and raises a
namespace-collision error when they intersect; otherwise it mines the
boundary field, substitutes the discovered expressions for the
exterior field components of the flux formula, and either drops the
term (Python integer 0) when the rewritten flux is the additive
identity or rebuilds a Flux binding over a BoundaryPair holding the
miner volume and boundary expression lists as object arrays.  All
other nodes are rebuilt structurally, sums and products of children
being reassembled by the pymbolic identity mapper with flattened_sum
and flattened_product. -/
def bcToFlux : Expr → Except Err Expr
  | .operatorBinding (.flux fl) (.boundaryPair vol bf t) =>
    let inter := depCollision vol bf
    if inter.isEmpty then
      do
        let rm ← mineTop t bf (initMinerState (volListOf vol))
        let nf ← fluxSubst (substBdry rm.1) fl
        if isZeroF nf then .ok (.const 0)
        else
          .ok (.operatorBinding (.flux nf)
            (.boundaryPair (.objArray rm.2.volList) (.objArray rm.2.bdryList) t))
    else .error (.namespaceCollision inter)
  | .operatorBinding o f => do .ok (.operatorBinding o (← bcToFlux f))
  | .boundaryPair f bf t => do .ok (.boundaryPair (← bcToFlux f) (← bcToFlux bf) t)
  | .sum cs => do .ok (flattenedSum (← bcList cs))
  | .product cs => do .ok (flattenedProduct (← bcList cs))
  | .cse c l => do .ok (.cse (← bcToFlux c) l)
  | .subscript a i => do .ok (.subscript (← bcToFlux a) (← bcToFlux i))
  | .objArray es => do .ok (.objArray (← bcList es))
  | .var n => .ok (.var n)
  | .scalarParameter n => .ok (.scalarParameter n)
  | .const c => .ok (.const c)
  | .normalComponent t ax => .ok (.normalComponent t ax)
  | .op o => .ok (.op o)
termination_by e => 2 * esize e
decreasing_by
  all_goals simp only [esize]; omega

/-- Child traversal of the BCToFluxRewriter. -/
def bcList : List Expr → Except Err (List Expr)
  | [] => .ok []
  | e :: es => do .ok ((← bcToFlux e) :: (← bcList es))
termination_by es => 2 * esizeList es + 1
decreasing_by
  all_goals simp only [esizeList]
  all_goals first
  | omega
  | (have h9 := esize_pos e; omega)

end

/-- BoundaryPair.__init__ (optemplate.py lines 362-370): it stores the
volume field, the boundary field and the tag and performs no validation
whatsoever; the Except form records that construction can signal no
error. -/
def boundaryPairInit (f bf : Expr) (t : Tag) : Except Err Expr :=
  .ok (.boundaryPair f bf t)

/-- BoundaryPair constructed without an explicit tag argument: the
default parameter value is hedge.mesh.TAG_ALL, the wildcard
all-boundaries tag. -/
def boundaryPairDefault (f bf : Expr) : Except Err Expr :=
  boundaryPairInit f bf Tag.all

/-- The operators recognized by the miner inside a boundary-side
expression: Boundarize and FluxExchange (normal components are leaves,
not operator applications). -/
def isRecognizedBoundaryOp : Operator → Bool
  | .boundarize _ => true
  | .fluxExchange _ _ => true
  | _ => false

/-- The operators covered by the four cancellation rules of the
inverse-mass contractor: Mass, Stiffness, StiffnessTranspose and Flux. -/
def contractibleOp : Operator → Bool
  | .mass => true
  | .stiffness _ => true
  | .stiffnessT _ => true
  | .flux _ => true
  | _ => false

mutual

/-- Whether a flux expression references only interior field
components (every field-component leaf carries is_interior = true). -/
def fluxOnlyInterior : FluxExpr → Bool
  | .fieldComponent _ isInt => isInt
  | .sum cs => fluxOnlyInteriorList cs
  | .product cs => fluxOnlyInteriorList cs
  | .const _ => true
  | .normal _ => true
  | .penaltyTerm _ => true
termination_by f => 2 * fsize f
decreasing_by
  all_goals simp only [fsize]; omega

/-- fluxOnlyInterior over all expressions of a list. -/
def fluxOnlyInteriorList : List FluxExpr → Bool
  | [] => true
  | f :: fs => fluxOnlyInterior f && fluxOnlyInteriorList fs
termination_by fs => 2 * fsizeList fs + 1
decreasing_by
  all_goals simp only [fsizeList]
  all_goals first
  | omega
  | (have h9 := fsize_pos f; omega)

end

/-- Atomic product factors: bare operators and the non-composite leaves
(variables, scalar parameters, constants, normal components). -/
def isAtom : Expr → Bool
  | .op _ => true
  | .var _ => true
  | .scalarParameter _ => true
  | .const _ => true
  | .normalComponent _ _ => true
  | _ => false

mutual

/-- Product factors that flatten away completely: atoms, and products
whose factors again have this property. -/
def flatFactor : Expr → Bool
  | .product cs => flatFactorList cs
  | e => isAtom e
termination_by e => 2 * esize e
decreasing_by
  all_goals simp only [esize]; omega

/-- flatFactor over all elements of a list. -/
def flatFactorList : List Expr → Bool
  | [] => true
  | e :: es => flatFactor e && flatFactorList es
termination_by es => 2 * esizeList es + 1
decreasing_by
  all_goals simp only [esizeList]
  all_goals first
  | omega
  | (have h9 := esize_pos e; omega)

end

mutual

/-- The class of templates on which the operator binder is idempotent
(the amended claim C3): every Product node has an atomic first factor
(an operator or a non-composite leaf) and factors that are atoms or
nested such products; all other node kinds recurse. -/
def goodT : Expr → Bool
  | .product [] => true
  | .product (first :: rest) => isAtom first && flatFactorList rest
  | .sum cs => goodTList cs
  | .operatorBinding _ f => goodT f
  | .boundaryPair f bf _ => goodT f && goodT bf
  | .cse c _ => goodT c
  | .subscript a i => goodT a && goodT i
  | .objArray es => goodTList es
  | _ => true
termination_by e => 2 * esize e
decreasing_by
  all_goals simp only [esize]; omega

/-- goodT over all elements of a list. -/
def goodTList : List Expr → Bool
  | [] => true
  | e :: es => goodT e && goodTList es
termination_by es => 2 * esizeList es + 1
decreasing_by
  all_goals simp only [esizeList]
  all_goals first
  | omega
  | (have h9 := esize_pos e; omega)

end

theorem isEqual_refl (a : Expr) : isEqual a a = true :=
  (isEqual_iff a a).mpr rfl

theorem bindOk {ε α β : Type} (a : α) (f : α → Except ε β) :
    (Except.ok a >>= f) = f a := rfl

theorem bindErr {ε α β : Type} (e : ε) (f : α → Except ε β) :
    ((Except.error e : Except ε α) >>= f) = .error e := rfl

/-- C1: for every pair of expression nodes of the same variant built
from equal payloads the nodes are structurally equal (is_equal is
reflexive on the embedded values), and for all nodes a and b, a == b
implies that the data fed to Python's hash by get_hash coincides, hence
hash(a) == hash(b) for any hash function of that data. -/
theorem C1_structural_eq_hash :
    (∀ a : Expr, isEqual a a = true) ∧
    (∀ a b : Expr, isEqual a b = true → getHash a = getHash b) ∧
    (∀ (H : PyObj → Int) (a b : Expr), isEqual a b = true → H (getHash a) = H (getHash b)) := by
  refine ⟨isEqual_refl, ?_, ?_⟩
  · intro a b hab
    exact congrArg getHash ((isEqual_iff a b).mp hab)
  · intro H a b hab
    exact congrArg H (congrArg getHash ((isEqual_iff a b).mp hab))

/-- Witness for C1 at the node OperatorBinding(Mass, u). -/
theorem C1_structural_eq_hash_witness :
    isEqual (.operatorBinding .mass (.var "u")) (.operatorBinding .mass (.var "u")) = true ∧
    getHash (.operatorBinding .mass (.var "u")) = getHash (.operatorBinding .mass (.var "u")) :=
  ⟨C1_structural_eq_hash.1 (.operatorBinding .mass (.var "u")),
   C1_structural_eq_hash.2.1 (.operatorBinding .mass (.var "u"))
     (.operatorBinding .mass (.var "u")) (by simp [isEqual])⟩

/-- C2: the inverse-mass contractor rewrites an InverseMass binding as
follows: over a Mass binding of x it yields x; over a Stiffness(axis)
binding of x it yields a Differentiation(axis) binding of x; over a
StiffnessTranspose(axis) binding of x it yields an MInvST(axis) binding
of x; over a Flux(f) binding of x it yields a LiftingFlux(f) binding
of x. -/
theorem C2_inverse_mass_cancellation :
    (∀ x : Expr,
      imc (.operatorBinding .inverseMass (.operatorBinding .mass x)) = .ok x) ∧
    (∀ (ax : Nat) (x : Expr),
      imc (.operatorBinding .inverseMass (.operatorBinding (.stiffness ax) x))
        = .ok (.operatorBinding (.differentiation ax) x)) ∧
    (∀ (ax : Nat) (x : Expr),
      imc (.operatorBinding .inverseMass (.operatorBinding (.stiffnessT ax) x))
        = .ok (.operatorBinding (.minvST ax) x)) ∧
    (∀ (fl : FluxExpr) (x : Expr),
      imc (.operatorBinding .inverseMass (.operatorBinding (.flux fl) x))
        = .ok (.operatorBinding (.liftingFlux fl) x)) := by
  refine ⟨?_, ?_, ?_, ?_⟩ <;> intros <;> simp [imc, innerIMC]

/-- C4 counterexample: for the InverseMass binding over the operand
ElementwiseMax(InverseMass(Mass(x))) — a binding not covered by the four
cancellation rules — the contractor wraps InverseMass around the operand
unchanged, although the recursively contracted form of that operand is
ElementwiseMax(x); the claimed result InverseMass(ElementwiseMax(x)) is
not produced. -/
theorem C4_counterexample :
    imc (.operatorBinding .inverseMass (.operatorBinding .elementwiseMax
        (.operatorBinding .inverseMass (.operatorBinding .mass (.var "x")))))
      = .ok (.operatorBinding .inverseMass (.operatorBinding .elementwiseMax
        (.operatorBinding .inverseMass (.operatorBinding .mass (.var "x"))))) ∧
    imc (.operatorBinding .elementwiseMax
        (.operatorBinding .inverseMass (.operatorBinding .mass (.var "x"))))
      = .ok (.operatorBinding .elementwiseMax (.var "x")) ∧
    imc (.operatorBinding .inverseMass (.operatorBinding .elementwiseMax
        (.operatorBinding .inverseMass (.operatorBinding .mass (.var "x")))))
      ≠ .ok (.operatorBinding .inverseMass (.operatorBinding .elementwiseMax (.var "x"))) := by
  refine ⟨by simp [imc, innerIMC], by simp [imc, innerIMC, bindOk], by simp [imc, innerIMC]⟩

/-- C4 amended: for every InverseMass binding whose operand is an
operator binding not covered by the four cancellation rules, the
contractor produces an InverseMass binding over that operand exactly as
it stands (no recursion into it). -/
theorem C4_amended (o : Operator) (f : Expr) (h : contractibleOp o = false) :
    imc (.operatorBinding .inverseMass (.operatorBinding o f))
      = .ok (.operatorBinding .inverseMass (.operatorBinding o f)) := by
  cases o <;> simp_all [imc, innerIMC, contractibleOp]

/-- Witness for C4 amended at the ElementwiseMax operator. -/
theorem C4_amended_witness :
    contractibleOp .elementwiseMax = false ∧
    imc (.operatorBinding .inverseMass (.operatorBinding .elementwiseMax (.var "y")))
      = .ok (.operatorBinding .inverseMass (.operatorBinding .elementwiseMax (.var "y"))) :=
  ⟨by decide, C4_amended .elementwiseMax (.var "y") (by decide)⟩

/-- C5 counterexample: constructing BoundaryPair(field = v, bfield = v,
tag = T) for the shared variable v succeeds and raises nothing —
BoundaryPair.__init__ merely stores its arguments — even though the
volume-side and boundary-side dependency sets share v. -/
theorem C5_counterexample :
    boundaryPairInit (.var "v") (.var "v") (.named "T")
      = .ok (.boundaryPair (.var "v") (.var "v") (.named "T")) ∧
    depCollision (.var "v") (.var "v") = [.var "v"] := by
  refine ⟨rfl, by simp [depCollision, deps, isEqual]⟩

/-- C5 amended: the namespace-collision error is raised not at
construction but by the BC-to-flux rewriter: for every Flux binding
over a BoundaryPair whose volume-side and boundary-side dependency sets
intersect, the rewriter fails with a namespace-collision error
reporting the shared dependencies, before any mining or substitution is
attempted. -/
theorem C5_amended (fl : FluxExpr) (vol bf : Expr) (t : Tag)
    (h : (depCollision vol bf).isEmpty = false) :
    bcToFlux (.operatorBinding (.flux fl) (.boundaryPair vol bf t))
      = .error (.namespaceCollision (depCollision vol bf)) := by
  simp [bcToFlux, h]

/-- Witness for C5 amended at the pair (field = v, bfield = v). -/
theorem C5_amended_witness :
    (depCollision (.var "v") (.var "v")).isEmpty = false ∧
    bcToFlux (.operatorBinding (.flux (.fieldComponent 0 false))
        (.boundaryPair (.var "v") (.var "v") (.named "T")))
      = .error (.namespaceCollision (depCollision (.var "v") (.var "v"))) :=
  ⟨by simp [depCollision, deps, isEqual], C5_amended (.fieldComponent 0 false) (.var "v") (.var "v") (.named "T")
    (by simp [depCollision, deps, isEqual])⟩

/-- C7: while mining a boundary-side expression the rewriter raises for
every NormalComponent, Boundarize or FluxExchange node whose tag
disagrees with the enclosing BoundaryPair tag, and for every operator
application other than Boundarize and FluxExchange; each error reports
the offending tags or operator. -/
theorem C7_boundary_mining_errors :
    (∀ (t t2 : Tag) (ax : Nat) (s : MinerState), t2 ≠ t →
      mineB t (.normalComponent t2 ax) s = .error (.normalTagMismatch t2 t)) ∧
    (∀ (t t2 : Tag) (f : Expr) (s : MinerState), t2 ≠ t →
      mineB t (.operatorBinding (.boundarize t2) f) s
        = .error (.boundarizeTagMismatch t2 t)) ∧
    (∀ (t : Tag) (ix rk : Nat) (f : Expr) (s : MinerState), t ≠ .rankBoundary rk →
      mineB t (.operatorBinding (.fluxExchange ix rk) f) s
        = .error (.exchangeTagMismatch (.rankBoundary rk) t)) ∧
    (∀ (t : Tag) (o : Operator) (f : Expr) (s : MinerState),
      isRecognizedBoundaryOp o = false →
      mineB t (.operatorBinding o f) s = .error (.operatorOnBoundary o)) := by
  refine ⟨?_, ?_, ?_, ?_⟩
  · intro t t2 ax s h
    simp [mineB, h]
  · intro t t2 f s h
    simp [mineB, h]
  · intro t ix rk f s h
    simp [mineB, h]
  · intro t o f s h
    cases o <;> simp_all [mineB, isRecognizedBoundaryOp]

/-- Witness for C7: each error branch at a concrete input. -/
theorem C7_boundary_mining_errors_witness :
    (Tag.named "S" ≠ Tag.named "T" ∧
      mineB (.named "T") (.normalComponent (.named "S") 1) (initMinerState [])
        = .error (.normalTagMismatch (.named "S") (.named "T"))) ∧
    (Tag.named "S" ≠ Tag.named "T" ∧
      mineB (.named "T") (.operatorBinding (.boundarize (.named "S")) (.var "u"))
          (initMinerState [])
        = .error (.boundarizeTagMismatch (.named "S") (.named "T"))) ∧
    (Tag.named "T" ≠ Tag.rankBoundary 2 ∧
      mineB (.named "T") (.operatorBinding (.fluxExchange 0 2) (.var "u"))
          (initMinerState [])
        = .error (.exchangeTagMismatch (.rankBoundary 2) (.named "T"))) ∧
    (isRecognizedBoundaryOp .mass = false ∧
      mineB (.named "T") (.operatorBinding .mass (.var "u")) (initMinerState [])
        = .error (.operatorOnBoundary .mass)) :=
  ⟨⟨by decide, C7_boundary_mining_errors.1 (.named "T") (.named "S") 1
      (initMinerState []) (by decide)⟩,
   ⟨by decide, C7_boundary_mining_errors.2.1 (.named "T") (.named "S") (.var "u")
      (initMinerState []) (by decide)⟩,
   ⟨by decide, C7_boundary_mining_errors.2.2.1 (.named "T") 0 2 (.var "u")
      (initMinerState []) (by decide)⟩,
   ⟨by decide, C7_boundary_mining_errors.2.2.2 (.named "T") .mass (.var "u")
      (initMinerState []) (by decide)⟩⟩

/-- C10: a BoundaryPair constructed without an explicit tag carries the
wildcard all-boundaries tag (hedge.mesh.TAG_ALL): the construction
coincides with passing that tag explicitly, so the resulting node
compares and hashes exactly as the explicitly tagged node — its
equality test compares other tags against the wildcard tag and its hash
input records the wildcard tag. -/
theorem C10_default_tag :
    (∀ f bf : Expr, boundaryPairDefault f bf = boundaryPairInit f bf Tag.all) ∧
    (∀ f bf : Expr, boundaryPairDefault f bf = .ok (.boundaryPair f bf Tag.all)) ∧
    (∀ (f bf f2 bf2 : Expr) (t2 : Tag),
      isEqual (.boundaryPair f bf Tag.all) (.boundaryPair f2 bf2 t2)
        = (isEqual f f2 && isEqual bf bf2 && (Tag.all == t2))) ∧
    (∀ f bf : Expr, getHash (.boundaryPair f bf Tag.all)
        = .ptuple [.pyclass "BoundaryPair", getHash f, getHash bf, .ptag Tag.all]) := by
  refine ⟨fun f bf => rfl, fun f bf => rfl, ?_, ?_⟩
  · intro f bf f2 bf2 t2
    simp [isEqual]
  · intro f bf
    simp [getHash]

theorem isZeroE_eq (e : Expr) (h : isZeroE e = true) : e = .const 0 := by
  cases e <;> simp_all [isZeroE]

theorem flattenSumAux_dropZero :
    ∀ (n : Nat) (q1 q2 done : List Expr), esizeList q1 + esizeList q2 = n →
      flattenSumAux (q1 ++ .const 0 :: q2) done = flattenSumAux (q1 ++ q2) done := by
  intro n
  induction n using Nat.strong_induction_on with
  | _ n ih =>
    intro q1 q2 done hn
    cases q1 with
    | nil =>
      simp [flattenSumAux, isZeroE]
    | cons e q1 =>
      have hstep : esizeList q1 + esizeList q2 < n := by
        subst hn; simp only [esizeList]; have := esize_pos e; omega
      cases e with
      | sum cs =>
        simp only [List.cons_append, flattenSumAux]
        rw [List.append_assoc, List.append_assoc]
        exact ih (esizeList q1 + esizeList (q2 ++ cs))
          (by subst hn; simp only [esizeList, esize, esizeList_append]; omega)
          q1 (q2 ++ cs) done rfl
      | const c =>
        simp only [List.cons_append, flattenSumAux, isZeroE]
        by_cases c0 : c = 0
        · rw [if_pos (by simp [c0]), if_pos (by simp [c0])]
          exact ih _ hstep q1 q2 done rfl
        · rw [if_neg (by simp [c0]), if_neg (by simp [c0])]
          exact ih _ hstep q1 q2 (done ++ [.const c]) rfl
      | var nm =>
        simp only [List.cons_append, flattenSumAux, isZeroE, Bool.false_eq_true,
          if_false]
        exact ih _ hstep q1 q2 (done ++ [.var nm]) rfl
      | scalarParameter nm =>
        simp only [List.cons_append, flattenSumAux, isZeroE, Bool.false_eq_true,
          if_false]
        exact ih _ hstep q1 q2 (done ++ [.scalarParameter nm]) rfl
      | normalComponent t ax =>
        simp only [List.cons_append, flattenSumAux, isZeroE, Bool.false_eq_true,
          if_false]
        exact ih _ hstep q1 q2 (done ++ [.normalComponent t ax]) rfl
      | op o =>
        simp only [List.cons_append, flattenSumAux, isZeroE, Bool.false_eq_true,
          if_false]
        exact ih _ hstep q1 q2 (done ++ [.op o]) rfl
      | operatorBinding o f =>
        simp only [List.cons_append, flattenSumAux, isZeroE, Bool.false_eq_true,
          if_false]
        exact ih _ hstep q1 q2 (done ++ [.operatorBinding o f]) rfl
      | boundaryPair f bf t =>
        simp only [List.cons_append, flattenSumAux, isZeroE, Bool.false_eq_true,
          if_false]
        exact ih _ hstep q1 q2 (done ++ [.boundaryPair f bf t]) rfl
      | product cs =>
        simp only [List.cons_append, flattenSumAux, isZeroE, Bool.false_eq_true,
          if_false]
        exact ih _ hstep q1 q2 (done ++ [.product cs]) rfl
      | cse c l =>
        simp only [List.cons_append, flattenSumAux, isZeroE, Bool.false_eq_true,
          if_false]
        exact ih _ hstep q1 q2 (done ++ [.cse c l]) rfl
      | subscript a i =>
        simp only [List.cons_append, flattenSumAux, isZeroE, Bool.false_eq_true,
          if_false]
        exact ih _ hstep q1 q2 (done ++ [.subscript a i]) rfl
      | objArray es =>
        simp only [List.cons_append, flattenSumAux, isZeroE, Bool.false_eq_true,
          if_false]
        exact ih _ hstep q1 q2 (done ++ [.objArray es]) rfl

theorem flattenedSum_dropZero (xs ys : List Expr) :
    flattenedSum (xs ++ .const 0 :: ys) = flattenedSum (xs ++ ys) := by
  unfold flattenedSum
  rw [flattenSumAux_dropZero (esizeList xs + esizeList ys) xs ys [] rfl]

/-- C9: the empty-flux killer rewrites every Flux or LiftingFlux binding
over a BoundaryPair whose tag the geometry oracle reports as having
zero boundary nodes to the additive identity 0, which the flattened
reassembly of sums then drops from any enclosing sum (shown both as the
general zero-dropping law of the sum rebuild and end to end on a sum of
a killed flux term and another summand); bindings not matching the kill
test and the other node kinds are reproduced by the structural identity
rebuild. -/
theorem C9_empty_flux_killer :
    (∀ (nc : Tag → Nat) (o : Operator) (vol bf : Expr) (t : Tag),
      isFluxFamily o = true → nc t = 0 →
      efk nc (.operatorBinding o (.boundaryPair vol bf t)) = .const 0) ∧
    (∀ (nc : Tag → Nat) (cs : List Expr),
      efk nc (.sum cs) = flattenedSum (efkList nc cs)) ∧
    (∀ (xs ys : List Expr),
      flattenedSum (xs ++ .const 0 :: ys) = flattenedSum (xs ++ ys)) ∧
    (∀ (nc : Tag → Nat) (fl : FluxExpr) (vol bf : Expr) (t : Tag) (nm : String),
      nc t = 0 →
      efk nc (.sum [.operatorBinding (.flux fl) (.boundaryPair vol bf t), .var nm])
        = .var nm) ∧
    (∀ (nc : Tag → Nat) (o : Operator) (f : Expr), efkKill nc o f = false →
      efk nc (.operatorBinding o f) = .operatorBinding o (efk nc f)) ∧
    (∀ (nc : Tag → Nat) (f bf : Expr) (t : Tag),
      efk nc (.boundaryPair f bf t) = .boundaryPair (efk nc f) (efk nc bf) t) ∧
    (∀ (nc : Tag → Nat) (nm : String), efk nc (.var nm) = .var nm) ∧
    (∀ (nc : Tag → Nat) (c : Int), efk nc (.const c) = .const c) ∧
    (∀ (nc : Tag → Nat) (o : Operator), efk nc (.op o) = .op o) := by
  refine ⟨?_, ?_, ?_, ?_, ?_, ?_, ?_, ?_, ?_⟩
  · intro nc o vol bf t h1 h2
    simp [efk, efkKill, h1, h2]
  · intro nc cs
    simp [efk, efkList]
  · exact flattenedSum_dropZero
  · intro nc fl vol bf t nm h
    simp [efk, efkList, efkKill, isFluxFamily, h, flattenedSum, flattenSumAux, isZeroE]
  · intro nc o f h
    simp [efk, h]
  · intro nc f bf t
    simp [efk]
  · intro nc nm
    simp [efk]
  · intro nc c
    simp [efk]
  · intro nc o
    simp [efk]

/-- Witness for C9: the kill rule, the enclosing-sum removal and the
reproduction of a non-killed binding at a concrete oracle on which the
tag E has zero boundary nodes and the tag B five. -/
theorem C9_empty_flux_killer_witness :
    (isFluxFamily (.flux (.normal 0)) = true ∧
      (fun t => match t with | Tag.named "E" => 0 | _ => 5) (Tag.named "E") = 0 ∧
      efk (fun t => match t with | Tag.named "E" => 0 | _ => 5)
        (.operatorBinding (.flux (.normal 0))
          (.boundaryPair (.var "u") (.var "b") (.named "E"))) = .const 0) ∧
    (efk (fun t => match t with | Tag.named "E" => 0 | _ => 5)
      (.sum [.operatorBinding (.flux (.normal 0))
        (.boundaryPair (.var "u") (.var "b") (.named "E")), .var "x"]) = .var "x") ∧
    (efkKill (fun t => match t with | Tag.named "E" => 0 | _ => 5)
        (.liftingFlux (.normal 0)) (.boundaryPair (.var "u") (.var "b") (.named "B")) = false ∧
      efk (fun t => match t with | Tag.named "E" => 0 | _ => 5)
        (.operatorBinding (.liftingFlux (.normal 0))
          (.boundaryPair (.var "u") (.var "b") (.named "B")))
        = .operatorBinding (.liftingFlux (.normal 0))
            (efk (fun t => match t with | Tag.named "E" => 0 | _ => 5)
              (.boundaryPair (.var "u") (.var "b") (.named "B")))) :=
  ⟨⟨rfl, rfl, C9_empty_flux_killer.1 _ (.flux (.normal 0)) (.var "u") (.var "b")
      (.named "E") rfl rfl⟩,
   C9_empty_flux_killer.2.2.2.1 _ (.normal 0) (.var "u") (.var "b") (.named "E") "x" rfl,
   ⟨by simp [efkKill, isFluxFamily], C9_empty_flux_killer.2.2.2.2.1 _
      (.liftingFlux (.normal 0)) (.boundaryPair (.var "u") (.var "b") (.named "B"))
      (by simp [efkKill, isFluxFamily])⟩⟩

theorem registerBoundary_volList (s : MinerState) (e : Expr) :
    (registerBoundary s e).2.volList = s.volList := by
  unfold registerBoundary
  cases dictGet? s.bdryIdx e <;> simp

theorem registerVolume_volPrefix (s : MinerState) (e : Expr) :
    s.volList <+: (registerVolume s e).2.volList := by
  unfold registerVolume
  cases dictGet? s.volIdx e <;> simp

theorem mineB_volPrefix (btag : Tag) (e : Expr) (s : MinerState) :
    ∀ (r : FluxExpr × MinerState), mineB btag e s = .ok r → s.volList <+: r.2.volList := by
  refine mineB.induct btag
    (fun e s => ∀ r, mineB btag e s = .ok r → s.volList <+: r.2.volList)
    (fun es s => ∀ r, mineList btag es s = .ok r → s.volList <+: r.2.volList)
    ?_ ?_ ?_ ?_ ?_ ?_ ?_ ?_ ?_ ?_ ?_ ?_ ?_ ?_ ?_ e s
  · intro ax s r h
    simp [mineB] at h
    subst h
    exact List.prefix_refl _
  · intro t ax s ht r h
    simp [mineB, ht] at h
  · intro nm s r h
    simp [mineB] at h
    subst h
    rw [registerBoundary_volList]
  · intro a ix s r h
    simp [mineB] at h
    subst h
    rw [registerBoundary_volList]
  · intro f s r h
    simp [mineB] at h
    subst h
    exact registerVolume_volPrefix s f
  · intro t f s ht r h
    simp [mineB, ht] at h
  · intro ix rk f s ht r h
    simp [mineB, ht] at h
    subst h
    rw [registerBoundary_volList]
  · intro ix rk f s ht r h
    simp [mineB, ht] at h
  · intro o field s h1 h2 r h
    cases o with
    | boundarize t => exact (h1 _ rfl).elim
    | fluxExchange ix rk => exact (h2 _ _ rfl).elim
    | _ => simp [mineB] at h
  · intro c s r h
    simp [mineB] at h
    subst h
    exact List.prefix_refl _
  · intro cs s ih r h
    rw [mineB] at h
    cases hml : mineList btag cs s with
    | error e2 => rw [hml, bindErr] at h; cases h
    | ok r1 =>
      rw [hml, bindOk] at h
      cases h
      exact ih r1 hml
  · intro cs s ih r h
    rw [mineB] at h
    cases hml : mineList btag cs s with
    | error e2 => rw [hml, bindErr] at h; cases h
    | ok r1 =>
      rw [hml, bindOk] at h
      cases h
      exact ih r1 hml
  · intro x s hn1 hn2 hn3 hn4 hn5 hn6 hn7 hn8 hn9 r h
    cases x with
    | var nm => exact (hn2 _ rfl).elim
    | scalarParameter nm => simp [mineB] at h
    | const c => exact (hn7 _ rfl).elim
    | normalComponent t ax => exact (hn1 _ _ rfl).elim
    | op o => simp [mineB] at h
    | operatorBinding o f => exact (hn6 _ _ rfl).elim
    | boundaryPair f bf t => simp [mineB] at h
    | sum cs => exact (hn8 _ rfl).elim
    | product cs => exact (hn9 _ rfl).elim
    | cse c l => simp [mineB] at h
    | subscript a ix => exact (hn3 _ _ rfl).elim
    | objArray es => simp [mineB] at h
  · intro s r h
    rw [mineList] at h
    cases h
    exact List.prefix_refl _
  · intro e es s ih1 ih2 r h
    rw [mineList] at h
    cases hm : mineB btag e s with
    | error e2 => rw [hm, bindErr] at h; cases h
    | ok r1 =>
      rw [hm, bindOk] at h
      cases hml : mineList btag es r1.2 with
      | error e2 => rw [hml, bindErr] at h; cases h
      | ok r2 =>
        rw [hml, bindOk] at h
        cases h
        exact (ih1 r1 hm).trans (ih2 r1 r2 hml)

theorem mineList_volPrefix (btag : Tag) (es : List Expr) :
    ∀ (s : MinerState) (r : List FluxExpr × MinerState),
      mineList btag es s = .ok r → s.volList <+: r.2.volList := by
  induction es with
  | nil =>
    intro s r h
    rw [mineList] at h
    cases h
    exact List.prefix_refl _
  | cons e es ih =>
    intro s r h
    rw [mineList] at h
    cases hm : mineB btag e s with
    | error e2 => rw [hm, bindErr] at h; cases h
    | ok r1 =>
      rw [hm, bindOk] at h
      cases hml : mineList btag es r1.2 with
      | error e2 => rw [hml, bindErr] at h; cases h
      | ok r2 =>
        rw [hml, bindOk] at h
        cases h
        exact (mineB_volPrefix btag e s r1 hm).trans (ih r1.2 r2 hml)

theorem mineTop_volPrefix (btag : Tag) (bf : Expr) (s : MinerState)
    (r : Mined × MinerState) (h : mineTop btag bf s = .ok r) :
    s.volList <+: r.2.volList := by
  unfold mineTop at h
  split at h
  · rename_i es
    cases hml : mineList btag es s with
    | error e2 => rw [hml, bindErr] at h; cases h
    | ok r1 =>
      rw [hml, bindOk] at h
      cases h
      exact mineList_volPrefix btag es s r1 hml
  · cases hm : mineB btag bf s with
    | error e2 => rw [hm, bindErr] at h; cases h
    | ok r1 =>
      rw [hm, bindOk] at h
      cases h
      exact mineB_volPrefix btag bf s r1 hm

/-- C8 counterexample: for the volume field (u, w) with flux referencing
only the exterior trace of u, the rewriter rebuilds the BoundaryPair
with the full original volume list (u, w) although only u was
registered during mining; the unused w is not discarded, so the rebuilt
pair is not the claimed minimal one with volume list (u). -/
theorem C8_counterexample :
    bcToFlux (.operatorBinding (.flux (.fieldComponent 0 false))
      (.boundaryPair (.objArray [.var "u", .var "w"])
        (.operatorBinding (.boundarize (.named "T")) (.var "u")) (.named "T")))
    = .ok (.operatorBinding (.flux (.fieldComponent 0 true))
      (.boundaryPair (.objArray [.var "u", .var "w"]) (.objArray []) (.named "T"))) ∧
    Expr.objArray [.var "u", .var "w"] ≠ .objArray [.var "u"] := by
  constructor
  · simp [bcToFlux, depCollision, deps, depsList, isEqual, mineTop, mineB,
      initMinerState, initIdx, dictInsert, dictGet?, registerVolume, volListOf,
      fluxSubst, substBdry, isZeroF, bindOk, List.enum, List.enumFrom, List.find?]
  · simp

/-- C8 amended: for every Flux binding over a BoundaryPair that passes
the dependency check, whose boundary field the miner translates
successfully, and whose substituted flux is not the additive identity,
the rewriter returns a new Flux binding over a new BoundaryPair whose
boundary expression list is exactly the list the miner registered and
whose volume expression list is the miner's final volume list, of which
the original volume field components are a prefix (they are retained
whether used or not, and only newly registered volume expressions are
appended). -/
theorem C8_amended (fl : FluxExpr) (vol bf : Expr) (t : Tag)
    (m : Mined) (s : MinerState) (nf : FluxExpr)
    (hd : (depCollision vol bf).isEmpty = true)
    (hm : mineTop t bf (initMinerState (volListOf vol)) = .ok (m, s))
    (hs : fluxSubst (substBdry m) fl = .ok nf)
    (hz : isZeroF nf = false) :
    bcToFlux (.operatorBinding (.flux fl) (.boundaryPair vol bf t))
      = .ok (.operatorBinding (.flux nf)
          (.boundaryPair (.objArray s.volList) (.objArray s.bdryList) t))
    ∧ volListOf vol <+: s.volList := by
  constructor
  · simp only [bcToFlux, hd, if_true, hm, bindOk, hs, hz, Bool.false_eq_true, if_false]
  · have h := mineTop_volPrefix t bf (initMinerState (volListOf vol)) (m, s) hm
    simpa [initMinerState] using h

/-- Witness for C8 amended, at the scalar pair (field = u,
bfield = Boundarize(T)(u)) under the exterior-referencing flux. -/
theorem C8_amended_witness :
    ((depCollision (.var "u") (.operatorBinding (.boundarize (.named "T")) (.var "u"))).isEmpty = true ∧
     mineTop (.named "T") (.operatorBinding (.boundarize (.named "T")) (.var "u"))
        (initMinerState (volListOf (.var "u")))
       = .ok (.scalar (.fieldComponent 0 true), ⟨[.var "u"], [(.var "u", 0)], [], []⟩) ∧
     fluxSubst (substBdry (.scalar (.fieldComponent 0 true))) (.fieldComponent 0 false)
       = .ok (.fieldComponent 0 true) ∧
     isZeroF (.fieldComponent 0 true) = false) ∧
    (bcToFlux (.operatorBinding (.flux (.fieldComponent 0 false))
        (.boundaryPair (.var "u") (.operatorBinding (.boundarize (.named "T")) (.var "u")) (.named "T")))
      = .ok (.operatorBinding (.flux (.fieldComponent 0 true))
          (.boundaryPair (.objArray [.var "u"]) (.objArray []) (.named "T")))
     ∧ volListOf (.var "u") <+: [.var "u"]) := by
  have hd : (depCollision (.var "u") (.operatorBinding (.boundarize (.named "T")) (.var "u"))).isEmpty = true := by
    simp [depCollision, deps, isEqual]
  have hm : mineTop (.named "T") (.operatorBinding (.boundarize (.named "T")) (.var "u"))
      (initMinerState (volListOf (.var "u")))
      = .ok (.scalar (.fieldComponent 0 true), ⟨[.var "u"], [(.var "u", 0)], [], []⟩) := by
    simp [mineTop, mineB, initMinerState, initIdx, volListOf, dictInsert, dictGet?,
      registerVolume, List.enum, List.enumFrom, List.find?, bindOk]
  have hs : fluxSubst (substBdry (.scalar (.fieldComponent 0 true))) (.fieldComponent 0 false)
      = .ok (.fieldComponent 0 true) := by
    simp [fluxSubst, substBdry, bindOk]
  have hz : isZeroF (.fieldComponent 0 true) = false := rfl
  exact ⟨⟨hd, hm, hs, hz⟩,
    C8_amended (.fieldComponent 0 false) (.var "u")
      (.operatorBinding (.boundarize (.named "T")) (.var "u")) (.named "T")
      (.scalar (.fieldComponent 0 true)) ⟨[.var "u"], [(.var "u", 0)], [], []⟩
      (.fieldComponent 0 true) hd hm hs hz⟩

/-- C6: for the flux a·interior(u) + b·exterior(u) (a, b nonzero scalar
coefficients) bound over the pair (field = u, bfield =
Boundarize(tag)(u)) with matching tags, the rewriter yields a Flux
binding whose formula references only interior field components (the
matching Boundarize binding registered its operand u as an interior
flux input), and the rebuilt BoundaryPair carries the volume list (u)
and an empty boundary expression list. -/
theorem C6_boundary_trace_elimination (a b : Int) (t : Tag) (un : String)
    (ha : a ≠ 0) (hb : b ≠ 0) :
    bcToFlux (.operatorBinding
      (.flux (.sum [.product [.const a, .fieldComponent 0 true],
                    .product [.const b, .fieldComponent 0 false]]))
      (.boundaryPair (.var un) (.operatorBinding (.boundarize t) (.var un)) t))
    = .ok (.operatorBinding
      (.flux (.sum [.product [.const a, .fieldComponent 0 true],
                    .product [.const b, .fieldComponent 0 true]]))
      (.boundaryPair (.objArray [.var un]) (.objArray []) t))
    ∧ fluxOnlyInterior (.sum [.product [.const a, .fieldComponent 0 true],
                    .product [.const b, .fieldComponent 0 true]]) = true := by
  constructor
  · simp [bcToFlux, depCollision, deps, depsList, isEqual, mineTop, mineB,
      initMinerState, initIdx, dictInsert, dictGet?, registerVolume, volListOf,
      fluxSubst, fluxSubstList, substBdry, isZeroF, bindOk,
      fluxFlattenedSum, fluxFlattenSumAux, fluxFlattenedProduct, fluxFlattenProdAux,
      List.enum, List.enumFrom, List.find?, ha, hb]
  · simp [fluxOnlyInterior, fluxOnlyInteriorList]

/-- Witness for C6 at a = 2, b = 3, tag T, field name u. -/
theorem C6_boundary_trace_elimination_witness :
    ((2 : Int) ≠ 0 ∧ (3 : Int) ≠ 0) ∧
    (bcToFlux (.operatorBinding
      (.flux (.sum [.product [.const 2, .fieldComponent 0 true],
                    .product [.const 3, .fieldComponent 0 false]]))
      (.boundaryPair (.var "u") (.operatorBinding (.boundarize (.named "T")) (.var "u")) (.named "T")))
    = .ok (.operatorBinding
      (.flux (.sum [.product [.const 2, .fieldComponent 0 true],
                    .product [.const 3, .fieldComponent 0 true]]))
      (.boundaryPair (.objArray [.var "u"]) (.objArray []) (.named "T")))
    ∧ fluxOnlyInterior (.sum [.product [.const 2, .fieldComponent 0 true],
                    .product [.const 3, .fieldComponent 0 true]]) = true) :=
  ⟨⟨by decide, by decide⟩,
   C6_boundary_trace_elimination 2 3 (.named "T") "u" (by decide) (by decide)⟩

/-- Whether an expression is a bare operator leaf. -/
def isOpLeaf : Expr → Bool
  | .op _ => true
  | _ => false

/-- Whether an expression is a pymbolic Sum node. -/
def isSumE : Expr → Bool
  | .sum _ => true
  | _ => false

/-- The right-spine factor list of a two-factor product chain as the
binder builds them. -/
def spineElems : Expr → List Expr
  | .product [h, r] => h :: spineElems r
  | e => [e]
termination_by e => esize e
decreasing_by
  all_goals simp only [esize, esizeList]; omega

/-- Whether Python multiplication of h and r builds the two-factor
product (h, r) without simplification: no pair of plain scalars, and no
multiplication by the scalars 0 or 1. -/
def noSimp (h r : Expr) : Bool :=
  match h, r with
  | .const _, .const _ => false
  | .const x, _ => !(x == 1) && !(x == 0)
  | _, .const y => !(y == 1) && !(y == 0)
  | _, _ => true

/-- The binder-normal forms: the shapes the operator binder produces on
templates of the goodT class, on which the binder acts as the
identity.  Sums hold at least two flattened (non-sum, nonzero) normal
summands; products are either empty or two-factor chains of a
non-operator atomic head with a normal tail on which Python
multiplication performs no simplification. -/
inductive Bnd : Expr → Prop where
  | var (n : String) : Bnd (.var n)
  | scalarParameter (n : String) : Bnd (.scalarParameter n)
  | const (c : Int) : Bnd (.const c)
  | normalComponent (t : Tag) (ax : Nat) : Bnd (.normalComponent t ax)
  | op (o : Operator) : Bnd (.op o)
  | ob (o : Operator) {f : Expr} : Bnd f → Bnd (.operatorBinding o f)
  | bp {f bf : Expr} (t : Tag) : Bnd f → Bnd bf → Bnd (.boundaryPair f bf t)
  | cse {c : Expr} (l : Option String) : Bnd c → Bnd (.cse c l)
  | subscript {a i : Expr} : Bnd a → Bnd i → Bnd (.subscript a i)
  | objArray {es : List Expr} : (∀ e ∈ es, Bnd e) → Bnd (.objArray es)
  | emptyProd : Bnd (.product [])
  | spine {h r : Expr} : isAtom h = true → isOpLeaf h = false → Bnd r →
      r ≠ .product [] → noSimp h r = true → Bnd (.product [h, r])
  | sum {ds : List Expr} : (∀ e ∈ ds, Bnd e) →
      (∀ e ∈ ds, isSumE e = false ∧ isZeroE e = false) →
      2 ≤ ds.length → Bnd (.sum ds)

theorem binder_product_op (o : Operator) (rest : List Expr) :
    binder (.product (.op o :: rest))
      = .operatorBinding o (binder (flattenedProduct rest)) := by
  simp [binder]

theorem binder_product_cons (first : Expr) (rest : List Expr)
    (h : isOpLeaf first = false) :
    binder (.product (first :: rest))
      = mul first (binder (flattenedProduct rest)) := by
  cases first <;> simp_all [binder, isOpLeaf]

theorem binder_leaf_eq (e : Expr) (h : isAtom e = true) : binder e = e := by
  cases e <;> simp_all [binder, isAtom]

theorem FP_singleton (e : Expr) (h : ∀ cs, e ≠ .product cs) :
    flattenedProduct [e] = e := by
  by_cases hz : isZeroE e = true
  · rw [isZeroE_eq e hz]
    rw [isZeroE_eq e hz] at hz
    simp [flattenedProduct, flattenProdAux, isZeroE]
  · unfold flattenedProduct
    cases e <;> simp_all [flattenProdAux, isZeroE]

theorem mul_noSimp {h r : Expr} (hn : noSimp h r = true) :
    mul h r = .product [h, r] := by
  cases h <;> cases r <;> simp_all [noSimp, mul] <;> split_ifs <;> simp_all

theorem noSimp_facts {h r : Expr} (hn : noSimp h r = true) :
    isZeroE h = false ∧ isZeroE r = false ∧ r ≠ .const 1 := by
  cases h <;> cases r <;> simp_all [noSimp, isZeroE]

theorem mul_simp_shapes {h r : Expr} (hn : noSimp h r = false) :
    (∃ c, mul h r = .const c) ∨ mul h r = r ∨ mul h r = h := by
  cases h <;> cases r <;> simp_all [noSimp, mul] <;> split_ifs <;> simp_all

theorem Bnd_atom {e : Expr} (h : isAtom e = true) : Bnd e := by
  cases e <;> simp [isAtom] at h
  · exact Bnd.var _
  · exact Bnd.scalarParameter _
  · exact Bnd.const _
  · exact Bnd.normalComponent _ _
  · exact Bnd.op _

theorem atom_shape {e : Expr} (h : isAtom e = true) :
    (∀ cs, e ≠ .product cs) ∧ isSumE e = false := by
  cases e <;> simp_all [isAtom, isSumE]

theorem binderList_congr {es : List Expr} (h : ∀ e ∈ es, binder e = e) :
    binderList es = es := by
  induction es with
  | nil => simp [binderList]
  | cons e es ih =>
    simp only [binderList, List.map]
    rw [h e (by simp)]
    have := ih (fun x hx => h x (by simp [hx]))
    simp only [binderList] at this
    rw [this]

theorem flattenProdAux_flat :
    ∀ (xs done : List Expr),
      (∀ e ∈ xs, (∀ cs, e ≠ .product cs) ∧ isZeroE e = false) →
      flattenProdAux xs done = some (done ++ xs) := by
  intro xs
  induction xs with
  | nil => intro done _; simp [flattenProdAux]
  | cons e es ih =>
    intro done h
    have he1 := (h e (by simp)).1
    have he2 := (h e (by simp)).2
    have hrest : ∀ x ∈ es, (∀ cs, x ≠ .product cs) ∧ isZeroE x = false :=
      fun x hx => h x (by simp [hx])
    have step : flattenProdAux (e :: es) done = flattenProdAux es (done ++ [e]) := by
      cases e with
      | product cs => exact (he1 cs rfl).elim
      | _ => simp [flattenProdAux, he2]
    rw [step, ih (done ++ [e]) hrest]
    simp

theorem flattenSumAux_flat :
    ∀ (xs done : List Expr),
      (∀ e ∈ xs, isSumE e = false ∧ isZeroE e = false) →
      flattenSumAux xs done = done ++ xs := by
  intro xs
  induction xs with
  | nil => intro done _; simp [flattenSumAux]
  | cons e es ih =>
    intro done h
    have he1 := (h e (by simp)).1
    have he2 := (h e (by simp)).2
    have hrest : ∀ x ∈ es, isSumE x = false ∧ isZeroE x = false :=
      fun x hx => h x (by simp [hx])
    have step : flattenSumAux (e :: es) done = flattenSumAux es (done ++ [e]) := by
      cases e with
      | sum cs => simp [isSumE] at he1
      | _ => simp [flattenSumAux, he2]
    rw [step, ih (done ++ [e]) hrest]
    simp

theorem Bnd_sum_inv {ds : List Expr} (h : Bnd (.sum ds)) :
    (∀ e ∈ ds, Bnd e) ∧ (∀ e ∈ ds, isSumE e = false ∧ isZeroE e = false) ∧
      2 ≤ ds.length := by
  cases h with
  | sum h1 h2 h3 => exact ⟨h1, h2, h3⟩

theorem flattenSumAux_elems :
    ∀ (queue done : List Expr), (∀ q ∈ queue, Bnd q) →
      (∀ d ∈ done, Bnd d ∧ isSumE d = false ∧ isZeroE d = false) →
      ∀ x ∈ flattenSumAux queue done, Bnd x ∧ isSumE x = false ∧ isZeroE x = false := by
  intro queue done
  induction queue, done using flattenSumAux.induct with
  | case1 done =>
    intro _ hd x hx
    rw [flattenSumAux] at hx
    exact hd x hx
  | case2 cs queue done ih =>
    intro hq hd x hx
    rw [flattenSumAux] at hx
    refine ih ?_ hd x hx
    intro q hq2
    rcases List.mem_append.mp hq2 with h1 | h2
    · exact hq q (by simp [h1])
    · exact (Bnd_sum_inv (hq _ (by simp))).1 q h2
  | case3 e queue done hne hz ih =>
    intro hq hd x hx
    rw [flattenSumAux] at hx
    rotate_left
    · exact hne
    rw [if_pos hz] at hx
    exact ih (fun q hq2 => hq q (by simp [hq2])) hd x hx
  | case4 e queue done hne hz ih =>
    intro hq hd x hx
    rw [flattenSumAux] at hx
    rotate_left
    · exact hne
    rw [if_neg hz] at hx
    refine ih (fun q hq2 => hq q (by simp [hq2])) ?_ x hx
    intro d hdm
    rcases List.mem_append.mp hdm with h1 | h2
    · exact hd d h1
    · have : d = e := by simpa using h2
      subst this
      refine ⟨hq d (by simp), ?_, by simpa using hz⟩
      cases d <;> simp [isSumE]
      exact (hne _ rfl).elim

theorem Bnd_flattenedSum {qs : List Expr} (h : ∀ q ∈ qs, Bnd q) :
    Bnd (flattenedSum qs) := by
  have he := flattenSumAux_elems qs [] h (by simp)
  unfold flattenedSum
  cases hv : flattenSumAux qs [] with
  | nil => exact Bnd.const 0
  | cons d ds =>
    rw [hv] at he
    cases ds with
    | nil => exact (he d (by simp)).1
    | cons d2 ds =>
      refine Bnd.sum (fun e hm => (he e hm).1) (fun e hm => (he e hm).2) ?_
      simp

theorem flatFactorList_mem {cs : List Expr} (h : flatFactorList cs = true) :
    ∀ e ∈ cs, flatFactor e = true := by
  induction cs with
  | nil => intro e he; cases he
  | cons x xs ih =>
    rw [flatFactorList] at h
    have hsplit : flatFactor x = true ∧ flatFactorList xs = true := by
      constructor <;> simp_all
    intro e he
    rcases List.mem_cons.mp he with h1 | h2
    · subst h1; exact hsplit.1
    · exact ih hsplit.2 e h2

theorem flatFactor_nonprod {e : Expr} (h : flatFactor e = true)
    (hp : ∀ cs, e ≠ .product cs) : isAtom e = true := by
  cases e <;> simp_all [flatFactor, isAtom]

theorem isAtom_flatFactor {e : Expr} (h : isAtom e = true) : flatFactor e = true := by
  cases e <;> simp_all [flatFactor, isAtom]

theorem flatFactorList_of_mem {cs : List Expr}
    (h : ∀ e ∈ cs, flatFactor e = true) : flatFactorList cs = true := by
  induction cs with
  | nil => simp [flatFactorList]
  | cons x xs ih =>
    rw [flatFactorList, h x (by simp), ih (fun e he => h e (by simp [he]))]
    rfl

theorem flattenProdAux_atoms :
    ∀ (queue done : List Expr), (∀ q ∈ queue, flatFactor q = true) →
      (∀ d ∈ done, isAtom d = true ∧ isZeroE d = false) →
      flattenProdAux queue done = none ∨
        ∃ out, flattenProdAux queue done = some out ∧
          ∀ d ∈ out, isAtom d = true ∧ isZeroE d = false := by
  intro queue done
  induction queue, done using flattenProdAux.induct with
  | case1 done =>
    intro _ hd
    right
    exact ⟨done, by rw [flattenProdAux], hd⟩
  | case2 cs queue done ih =>
    intro hq hd
    rw [flattenProdAux]
    refine ih ?_ hd
    intro q hq2
    rcases List.mem_append.mp hq2 with h1 | h2
    · exact hq q (by simp [h1])
    · have hf := hq (.product cs) (by simp)
      rw [flatFactor] at hf
      exact flatFactorList_mem hf q h2
  | case3 e queue done hne hz =>
    intro hq hd
    left
    rw [flattenProdAux]
    rotate_left
    · exact hne
    rw [if_pos hz]
  | case4 e queue done hne hz ih =>
    intro hq hd
    rw [flattenProdAux]
    rotate_left
    · exact hne
    rw [if_neg hz]
    refine ih (fun q hq2 => hq q (by simp [hq2])) ?_
    intro d hdm
    rcases List.mem_append.mp hdm with h1 | h2
    · exact hd d h1
    · have : d = e := by simpa using h2
      subst this
      refine ⟨?_, by simpa using hz⟩
      refine flatFactor_nonprod (hq d (by simp)) ?_
      intro cs hc
      exact hne cs hc

theorem goodT_atom {e : Expr} (h : isAtom e = true) : goodT e = true := by
  cases e <;> simp_all [isAtom, goodT]

theorem goodT_FP {rest : List Expr} (h : flatFactorList rest = true) :
    goodT (flattenedProduct rest) = true := by
  unfold flattenedProduct
  rcases flattenProdAux_atoms rest [] (flatFactorList_mem h) (by simp) with hn | ⟨out, ho, hfacts⟩
  · rw [hn]
    simp [goodT]
  · rw [ho]
    cases out with
    | nil => simp [goodT]
    | cons a out2 =>
      cases out2 with
      | nil => exact goodT_atom (hfacts a (by simp)).1
      | cons b out3 =>
        have h1 := (hfacts a (by simp)).1
        have h2 : flatFactorList (b :: out3) = true :=
          flatFactorList_of_mem (fun e he => isAtom_flatFactor (hfacts e (by simp [he])).1)
        simp [goodT, h1, h2]

theorem spineElems_other {e : Expr} (hne : ∀ a r, e ≠ .product [a, r]) :
    spineElems e = [e] := by
  rw [spineElems]
  intro a r h
  exact hne a r h

theorem spineElems_nonprod {e : Expr} (hne : ∀ cs, e ≠ .product cs) :
    spineElems e = [e] :=
  spineElems_other (fun a r h => hne [a, r] h)

theorem flattenProdAux_step {e : Expr} (hne : ∀ cs, e ≠ .product cs)
    (hz : isZeroE e = false) (queue done : List Expr) :
    flattenProdAux (e :: queue) done = flattenProdAux queue (done ++ [e]) := by
  rw [flattenProdAux]
  rotate_left
  · intro cs h
    exact hne cs h
  simp [hz]

theorem spineElems_ne : ∀ e : Expr, ∃ a l, spineElems e = a :: l := by
  intro e
  induction e using spineElems.induct with
  | case1 a r ih => exact ⟨a, spineElems r, by simp [spineElems]⟩
  | case2 e hcond => exact ⟨e, [], spineElems_other hcond⟩

theorem spineElems_facts : ∀ {e : Expr}, Bnd e →
    isZeroE e = false → e ≠ .product [] →
    ∀ x ∈ spineElems e, (∀ cs, x ≠ .product cs) ∧ isZeroE x = false := by
  intro e h
  induction h with
  | var n =>
    intro hz _ x hx
    rw [spineElems_nonprod (by simp)] at hx
    simp at hx
    subst hx
    exact ⟨by simp, hz⟩
  | scalarParameter n =>
    intro hz _ x hx
    rw [spineElems_nonprod (by simp)] at hx
    simp at hx
    subst hx
    exact ⟨by simp, hz⟩
  | const c =>
    intro hz _ x hx
    rw [spineElems_nonprod (by simp)] at hx
    simp at hx
    subst hx
    exact ⟨by simp, hz⟩
  | normalComponent t ax =>
    intro hz _ x hx
    rw [spineElems_nonprod (by simp)] at hx
    simp at hx
    subst hx
    exact ⟨by simp, hz⟩
  | op o =>
    intro hz _ x hx
    rw [spineElems_nonprod (by simp)] at hx
    simp at hx
    subst hx
    exact ⟨by simp, hz⟩
  | ob o hf ihf =>
    intro hz _ x hx
    rw [spineElems_nonprod (by simp)] at hx
    simp at hx
    subst hx
    exact ⟨by simp, hz⟩
  | bp t hf hbf ihf ihbf =>
    intro hz _ x hx
    rw [spineElems_nonprod (by simp)] at hx
    simp at hx
    subst hx
    exact ⟨by simp, hz⟩
  | cse l hc ihc =>
    intro hz _ x hx
    rw [spineElems_nonprod (by simp)] at hx
    simp at hx
    subst hx
    exact ⟨by simp, hz⟩
  | subscript ha hi iha ihi =>
    intro hz _ x hx
    rw [spineElems_nonprod (by simp)] at hx
    simp at hx
    subst hx
    exact ⟨by simp, hz⟩
  | objArray hes ihes =>
    intro hz _ x hx
    rw [spineElems_nonprod (by simp)] at hx
    simp at hx
    subst hx
    exact ⟨by simp, hz⟩
  | emptyProd =>
    intro _ hne
    exact absurd rfl hne
  | spine ha ho hr hne hns ihr =>
    rename_i a r
    intro _ _ x hx
    have hfacts := noSimp_facts hns
    rw [show spineElems (Expr.product [a, r]) = a :: spineElems r from by
      simp [spineElems]] at hx
    rcases List.mem_cons.mp hx with h1 | h2
    · subst h1
      exact ⟨(atom_shape ha).1, hfacts.1⟩
    · exact ihr hfacts.2.1 hne x h2
  | sum hds hflat hlen =>
    intro hz _ x hx
    rw [spineElems_nonprod (by simp)] at hx
    simp at hx
    subst hx
    exact ⟨by simp, hz⟩

theorem SP_flat : ∀ {e : Expr}, Bnd e → isZeroE e = false → e ≠ .product [] →
    ∀ done, flattenProdAux [e] done = some (done ++ spineElems e) := by
  intro e h
  induction h with
  | var n =>
    intro hz _ done
    rw [spineElems_nonprod (by simp), flattenProdAux_step (by simp) hz, flattenProdAux]
  | scalarParameter n =>
    intro hz _ done
    rw [spineElems_nonprod (by simp), flattenProdAux_step (by simp) hz, flattenProdAux]
  | const c =>
    intro hz _ done
    rw [spineElems_nonprod (by simp), flattenProdAux_step (by simp) hz, flattenProdAux]
  | normalComponent t ax =>
    intro hz _ done
    rw [spineElems_nonprod (by simp), flattenProdAux_step (by simp) hz, flattenProdAux]
  | op o =>
    intro hz _ done
    rw [spineElems_nonprod (by simp), flattenProdAux_step (by simp) hz, flattenProdAux]
  | ob o hf ihf =>
    intro hz _ done
    rw [spineElems_nonprod (by simp), flattenProdAux_step (by simp) hz, flattenProdAux]
  | bp t hf hbf ihf ihbf =>
    intro hz _ done
    rw [spineElems_nonprod (by simp), flattenProdAux_step (by simp) hz, flattenProdAux]
  | cse l hc ihc =>
    intro hz _ done
    rw [spineElems_nonprod (by simp), flattenProdAux_step (by simp) hz, flattenProdAux]
  | subscript ha hi iha ihi =>
    intro hz _ done
    rw [spineElems_nonprod (by simp), flattenProdAux_step (by simp) hz, flattenProdAux]
  | objArray hes ihes =>
    intro hz _ done
    rw [spineElems_nonprod (by simp), flattenProdAux_step (by simp) hz, flattenProdAux]
  | emptyProd =>
    intro _ hne
    exact absurd rfl hne
  | spine ha ho hr hne hns ihr =>
    rename_i a r
    intro _ _ done
    have hfacts := noSimp_facts hns
    have hna := (atom_shape ha).1
    rw [show spineElems (Expr.product [a, r]) = a :: spineElems r from by
      simp [spineElems]]
    rw [show flattenProdAux [Expr.product [a, r]] done
        = flattenProdAux ([] ++ [a, r]) done from by rw [flattenProdAux]]
    simp only [List.nil_append]
    rw [flattenProdAux_step hna hfacts.1, ihr hfacts.2.1 hne]
    simp
  | sum hds hflat hlen =>
    intro hz _ done
    rw [spineElems_nonprod (by simp), flattenProdAux_step (by simp) hz, flattenProdAux]

theorem FP_flat {xs : List Expr}
    (h : ∀ e ∈ xs, (∀ cs, e ≠ .product cs) ∧ isZeroE e = false)
    (hl : 2 ≤ xs.length) : flattenedProduct xs = .product xs := by
  rcases xs with _ | ⟨a, _ | ⟨b, l⟩⟩
  · simp at hl
  · simp at hl
  · unfold flattenedProduct
    rw [flattenProdAux_flat _ [] h]
    rfl

theorem flattenedSum_flat {ds : List Expr}
    (h : ∀ e ∈ ds, isSumE e = false ∧ isZeroE e = false) (hl : 2 ≤ ds.length) :
    flattenedSum ds = .sum ds := by
  rcases ds with _ | ⟨a, _ | ⟨b, l⟩⟩
  · simp at hl
  · simp at hl
  · unfold flattenedSum
    rw [flattenSumAux_flat _ [] h]
    rfl

theorem FP_spineSame {e : Expr} (h : Bnd e) (hz : isZeroE e = false)
    (hne : e ≠ .product []) :
    flattenedProduct [e] = flattenedProduct (spineElems e) := by
  unfold flattenedProduct
  rw [SP_flat h hz hne [], flattenProdAux_flat _ [] (spineElems_facts h hz hne)]

theorem Bnd_mul {a r : Expr} (ha : isAtom a = true) (ho : isOpLeaf a = false)
    (hr : Bnd r) (hne : r ≠ .product []) :
    Bnd (mul a r) ∧ mul a r ≠ .product [] := by
  by_cases hn : noSimp a r = true
  · rw [mul_noSimp hn]
    exact ⟨Bnd.spine ha ho hr hne hn, by simp⟩
  · rcases mul_simp_shapes (by simpa using hn) with ⟨c, hc⟩ | hc | hc
    · rw [hc]
      exact ⟨Bnd.const c, by simp⟩
    · rw [hc]
      exact ⟨hr, hne⟩
    · rw [hc]
      exact ⟨Bnd_atom ha, (atom_shape ha).1 []⟩

theorem second_of_first {e : Expr} (hne : ∀ cs, e ≠ .product cs)
    (hb : binder e = e) : binder (flattenedProduct (spineElems e)) = e := by
  rw [spineElems_nonprod hne, FP_singleton e hne, hb]

theorem Bnd_fix : ∀ {e : Expr}, Bnd e →
    binder e = e ∧ (e ≠ .product [] → binder (flattenedProduct (spineElems e)) = e) := by
  intro e h
  induction h with
  | var n =>
    have h1 : binder (.var n) = .var n := binder_leaf_eq _ (by simp [isAtom])
    exact ⟨h1, fun _ => second_of_first (by simp) h1⟩
  | scalarParameter n =>
    have h1 : binder (.scalarParameter n) = .scalarParameter n :=
      binder_leaf_eq _ (by simp [isAtom])
    exact ⟨h1, fun _ => second_of_first (by simp) h1⟩
  | const c =>
    have h1 : binder (.const c) = .const c := binder_leaf_eq _ (by simp [isAtom])
    exact ⟨h1, fun _ => second_of_first (by simp) h1⟩
  | normalComponent t ax =>
    have h1 : binder (.normalComponent t ax) = .normalComponent t ax :=
      binder_leaf_eq _ (by simp [isAtom])
    exact ⟨h1, fun _ => second_of_first (by simp) h1⟩
  | op o =>
    have h1 : binder (.op o) = .op o := binder_leaf_eq _ (by simp [isAtom])
    exact ⟨h1, fun _ => second_of_first (by simp) h1⟩
  | ob o hf ihf =>
    rename_i f
    have h1 : binder (.operatorBinding o f) = .operatorBinding o f := by
      rw [binder, ihf.1]
    exact ⟨h1, fun _ => second_of_first (by simp) h1⟩
  | bp t hf hbf ihf ihbf =>
    rename_i f bf
    have h1 : binder (.boundaryPair f bf t) = .boundaryPair f bf t := by
      rw [binder, ihf.1, ihbf.1]
    exact ⟨h1, fun _ => second_of_first (by simp) h1⟩
  | cse l hc ihc =>
    rename_i c
    have h1 : binder (.cse c l) = .cse c l := by
      rw [binder, ihc.1]
    exact ⟨h1, fun _ => second_of_first (by simp) h1⟩
  | subscript ha hi iha ihi =>
    rename_i a i
    have h1 : binder (.subscript a i) = .subscript a i := by
      rw [binder, iha.1, ihi.1]
    exact ⟨h1, fun _ => second_of_first (by simp) h1⟩
  | objArray hes ihes =>
    rename_i es
    have h1 : binder (.objArray es) = .objArray es := by
      rw [binder_objArray, binderList_congr (fun x hx => (ihes x hx).1)]
    exact ⟨h1, fun _ => second_of_first (by simp) h1⟩
  | emptyProd =>
    exact ⟨by rw [binder], fun hc => absurd rfl hc⟩
  | spine ha ho hr hne hns ihr =>
    rename_i a r
    have hz := noSimp_facts hns
    have hFP : binder (flattenedProduct [r]) = r := by
      rw [FP_spineSame hr hz.2.1 hne]
      exact ihr.2 hne
    have h1 : binder (.product [a, r]) = .product [a, r] := by
      rw [binder_product_cons a [r] ho, hFP, mul_noSimp hns]
    refine ⟨h1, fun _ => ?_⟩
    rw [show spineElems (Expr.product [a, r]) = a :: spineElems r from by
      simp [spineElems]]
    have hfactsR := spineElems_facts hr hz.2.1 hne
    have hflat : ∀ x ∈ a :: spineElems r,
        (∀ cs, x ≠ Expr.product cs) ∧ isZeroE x = false := by
      intro x hx
      rcases List.mem_cons.mp hx with h2 | h2
      · subst h2
        exact ⟨(atom_shape ha).1, hz.1⟩
      · exact hfactsR x h2
    obtain ⟨c, l, hcl⟩ := spineElems_ne r
    have hlen : 2 ≤ (a :: spineElems r).length := by
      simp [hcl]
    rw [FP_flat hflat hlen, binder_product_cons a (spineElems r) ho, ihr.2 hne]
    exact mul_noSimp hns
  | sum hds hflat hlen ihds =>
    rename_i ds
    have h1 : binder (.sum ds) = .sum ds := by
      rw [binder_sum, binderList_congr (fun x hx => (ihds x hx).1),
        flattenedSum_flat hflat hlen]
    exact ⟨h1, fun _ => second_of_first (by simp) h1⟩

theorem goodTList_mem {cs : List Expr} (h : goodTList cs = true) :
    ∀ e ∈ cs, goodT e = true := by
  induction cs with
  | nil => intro e he; cases he
  | cons x xs ih =>
    rw [goodTList] at h
    have hsplit : goodT x = true ∧ goodTList xs = true := by
      constructor <;> simp_all
    intro e he
    rcases List.mem_cons.mp he with h1 | h2
    · subst h1; exact hsplit.1
    · exact ih hsplit.2 e h2

theorem binder_FP_flat :
    ∀ (n : Nat) (xs : List Expr), esizeList xs = n → flatFactorList xs = true →
      Bnd (binder (flattenedProduct xs)) ∧ binder (flattenedProduct xs) ≠ .product [] := by
  intro n
  induction n using Nat.strong_induction_on with
  | _ n ih =>
    intro xs hn hf
    rcases flattenProdAux_atoms xs [] (flatFactorList_mem hf) (by simp)
      with hnone | ⟨out, hout, hfacts⟩
    · unfold flattenedProduct
      rw [hnone]
      rw [binder_leaf_eq _ (by simp [isAtom])]
      exact ⟨Bnd.const 0, by simp⟩
    · have hsz := flattenProdAux_esize xs [] out hout
      simp only [esizeList] at hsz
      unfold flattenedProduct
      rw [hout]
      rcases out with _ | ⟨a, _ | ⟨b, l⟩⟩
      · rw [show (match some ([] : List Expr) with
          | none => Expr.const 0
          | some [] => Expr.const 1
          | some [e] => e
          | some ds => Expr.product ds) = Expr.const 1 from rfl]
        rw [binder_leaf_eq _ (by simp [isAtom])]
        exact ⟨Bnd.const 1, by simp⟩
      · have hatom := (hfacts a (by simp)).1
        rw [show (match some [a] with
          | none => Expr.const 0
          | some [] => Expr.const 1
          | some [e] => e
          | some ds => Expr.product ds) = a from rfl]
        rw [binder_leaf_eq _ hatom]
        exact ⟨Bnd_atom hatom, (atom_shape hatom).1 []⟩
      · rw [show (match some (a :: b :: l) with
          | none => Expr.const 0
          | some [] => Expr.const 1
          | some [e] => e
          | some ds => Expr.product ds) = Expr.product (a :: b :: l) from rfl]
        have hatom := (hfacts a (by simp)).1
        have hflatRest : flatFactorList (b :: l) = true := by
          refine flatFactorList_of_mem ?_
          intro e he
          exact isAtom_flatFactor (hfacts e (by simp [he])).1
        have hszRest : esizeList (b :: l) < n := by
          have h2 := esize_pos a
          simp only [esizeList] at hsz ⊢
          omega
        have hIH := ih (esizeList (b :: l)) (by omega) (b :: l) rfl hflatRest
        by_cases hop : isOpLeaf a = true
        · obtain ⟨o, rfl⟩ : ∃ o, a = .op o := by
            cases a <;> simp_all [isOpLeaf]
          rw [binder_product_op]
          exact ⟨Bnd.ob o hIH.1, by simp⟩
        · rw [binder_product_cons a (b :: l) (by simpa using hop)]
          exact Bnd_mul hatom (by simpa using hop) hIH.1 hIH.2

theorem goodT_Bnd :
    ∀ (n : Nat) (T : Expr), esize T = n → goodT T = true → Bnd (binder T) := by
  intro n
  induction n using Nat.strong_induction_on with
  | _ n ih =>
    intro T hn hg
    subst hn
    cases T with
    | var s =>
      rw [binder_leaf_eq _ (by simp [isAtom])]
      exact Bnd.var s
    | scalarParameter s =>
      rw [binder_leaf_eq _ (by simp [isAtom])]
      exact Bnd.scalarParameter s
    | const c =>
      rw [binder_leaf_eq _ (by simp [isAtom])]
      exact Bnd.const c
    | normalComponent t ax =>
      rw [binder_leaf_eq _ (by simp [isAtom])]
      exact Bnd.normalComponent t ax
    | op o =>
      rw [binder_leaf_eq _ (by simp [isAtom])]
      exact Bnd.op o
    | operatorBinding o f =>
      rw [binder]
      refine Bnd.ob o (ih (esize f) (by simp only [esize]; omega) f rfl ?_)
      simpa [goodT] using hg
    | boundaryPair f bf t =>
      rw [binder]
      have hg2 : goodT f = true ∧ goodT bf = true := by
        rw [goodT] at hg
        constructor <;> simp_all
      exact Bnd.bp t (ih (esize f) (by simp only [esize]; omega) f rfl hg2.1)
        (ih (esize bf) (by simp only [esize]; omega) bf rfl hg2.2)
    | cse c l =>
      rw [binder]
      refine Bnd.cse l (ih (esize c) (by simp only [esize]; omega) c rfl ?_)
      simpa [goodT] using hg
    | subscript a i =>
      rw [binder]
      have hg2 : goodT a = true ∧ goodT i = true := by
        rw [goodT] at hg
        constructor <;> simp_all
      exact Bnd.subscript (ih (esize a) (by simp only [esize]; omega) a rfl hg2.1)
        (ih (esize i) (by simp only [esize]; omega) i rfl hg2.2)
    | objArray es =>
      rw [binder_objArray]
      refine Bnd.objArray ?_
      intro x hx
      rw [binderList] at hx
      obtain ⟨y, hy, rfl⟩ := List.mem_map.mp hx
      refine ih (esize y) ?_ y rfl (goodTList_mem (by simpa [goodT] using hg) y hy)
      have := esizeList_mem hy
      simp only [esize]
      omega
    | sum cs =>
      rw [binder_sum]
      refine Bnd_flattenedSum ?_
      intro q hq
      rw [binderList] at hq
      obtain ⟨y, hy, rfl⟩ := List.mem_map.mp hq
      refine ih (esize y) ?_ y rfl (goodTList_mem (by simpa [goodT] using hg) y hy)
      have := esizeList_mem hy
      simp only [esize]
      omega
    | product cs =>
      cases cs with
      | nil =>
        rw [binder]
        exact Bnd.emptyProd
      | cons first rest =>
        have hg2 : isAtom first = true ∧ flatFactorList rest = true := by
          rw [goodT] at hg
          constructor <;> simp_all
        by_cases hop : isOpLeaf first = true
        · obtain ⟨o, rfl⟩ : ∃ o, first = .op o := by
            cases first <;> simp_all [isOpLeaf]
          rw [binder_product_op]
          exact Bnd.ob o (binder_FP_flat (esizeList rest) rest rfl hg2.2).1
        · rw [binder_product_cons first rest (by simpa using hop)]
          have hFP := binder_FP_flat (esizeList rest) rest rfl hg2.2
          exact (Bnd_mul hg2.1 (by simpa using hop) hFP.1 hFP.2).1

theorem Bnd_binder {e : Expr} (h : Bnd e) : binder e = e := (Bnd_fix h).1

/-- C3, counterexample: the operator binder is not idempotent.  On the
template Product(Product(Differentiation0, x), 1) one application yields
the flat product Product(Differentiation0, x) -- the unmapped first
factor survives and multiplication by 1 collapses the rest -- and a
second application then binds the now-leading operator, producing
OperatorBinding(Differentiation0, x), which differs from the first
result. -/
theorem C3_counterexample :
    binder (.product [.product [.op (.differentiation 0), .var "x"], .const 1])
      = .product [.op (.differentiation 0), .var "x"] ∧
    binder (binder
        (.product [.product [.op (.differentiation 0), .var "x"], .const 1]))
      = .operatorBinding (.differentiation 0) (.var "x") ∧
    binder (binder
        (.product [.product [.op (.differentiation 0), .var "x"], .const 1]))
      ≠ binder (.product [.product [.op (.differentiation 0), .var "x"], .const 1]) := by
  refine ⟨?_, ?_, ?_⟩ <;>
    simp [binder, mul, flattenedProduct, flattenProdAux, isZeroE]

/-- C3 (amended): the operator binder's product emission rules hold as
specified -- an empty product is returned unchanged, a product whose
first factor is an operator becomes an OperatorBinding of that operator
over the recursively bound flattened remaining factors, and any other
product multiplies its first factor onto the recursively bound flattened
rest -- but idempotence does not hold for every template: it holds on
the class goodT of templates all of whose product nodes have an atomic
first factor (an operator or a non-composite leaf) and only atoms or
nested such products as factors, where Binder(Binder(T)) = Binder(T). -/
theorem C3_amended :
    binder (.product []) = .product [] ∧
    (∀ (o : Operator) (rest : List Expr),
      binder (.product (.op o :: rest))
        = .operatorBinding o (binder (flattenedProduct rest))) ∧
    (∀ (first : Expr) (rest : List Expr), isOpLeaf first = false →
      binder (.product (first :: rest))
        = mul first (binder (flattenedProduct rest))) ∧
    (∀ T : Expr, goodT T = true → binder (binder T) = binder T) := by
  refine ⟨by rw [binder], binder_product_op, binder_product_cons, ?_⟩
  intro T hg
  exact Bnd_binder (goodT_Bnd (esize T) T rfl hg)

theorem C3_amended_witness :
    goodT (.product [.op (.differentiation 0), .var "x"]) = true ∧
    isOpLeaf (.var "y") = false ∧
    binder (binder (.product [.op (.differentiation 0), .var "x"]))
      = binder (.product [.op (.differentiation 0), .var "x"]) ∧
    binder (.product [.var "y", .var "x"])
      = mul (.var "y") (binder (flattenedProduct [.var "x"])) :=
  ⟨by simp [goodT, isAtom, flatFactorList, flatFactor],
   by simp [isOpLeaf],
   C3_amended.2.2.2 _ (by simp [goodT, isAtom, flatFactorList, flatFactor]),
   C3_amended.2.2.1 _ _ (by simp [isOpLeaf])⟩

end Hedge
